import Mathlib

/-!
Verification of `flowpaths/multigraphdecomposer.py` (`MultiGraphDecomposer`).

The Python class turns a `networkx.MultiDiGraph` into a simple `DiGraph` by
splitting parallel edges through synthetic nodes, and offers conversions
between split-graph paths/edges and original multigraph edge identities.

Shallow embedding conventions:
* Python node identifiers and multigraph keys are modelled by `PyVal`
  (a string or an int), since the code mixes caller-supplied identifiers with
  synthetic string names built by an f-string.
* Python dicts are modelled as association lists with insert-or-update
  semantics (`alSet`), preserving first-insertion order exactly as CPython
  dicts do.  `defaultdict(dict)` reads are modelled by `getD []`.
* Edge attribute dicts are modelled by `EData`: the required `flow` field plus
  an opaque list of extra attributes that the code only ever copies.
* The Python `in` operator on `"_split_" in u` is partial: on a non-string it
  raises `TypeError`.  Fallible operations return `Except PyErr`.
-/

set_option maxHeartbeats 1000000

/-- A Python value usable as a node identifier or multigraph key: either a
string or an int.  (The code builds synthetic string names with an f-string,
so graphs with non-string identifiers still produce string synthetic nodes.) -/
inductive PyVal where
  | str (s : String)
  | int (n : Int)
deriving DecidableEq, Repr

/-- Python `str()` of a value, as used inside the f-string
`f"{u}_{v}_split_{count}"`. -/
def pyStr : PyVal → String
  | .str s => s
  | .int n => toString n

/-- Whether a `PyVal` is a Python string. -/
def PyVal.isStr : PyVal → Bool
  | .str _ => true
  | .int _ => false

/-- A Python exception: the code can raise `ValueError` explicitly and
`TypeError` implicitly (substring test on a non-string). -/
inductive PyErr where
  | valueError (msg : String)
  | typeError (msg : String)
deriving DecidableEq, Repr

/-- Edge attribute data: the numeric `flow` field required by the spec plus
arbitrary extension attributes (opaque to the decomposer, which only copies
them). -/
structure EData where
  flow : Int
  extra : List (String × Int)
deriving DecidableEq, Repr

/-- `data.copy()` followed by `data['flow'] = 0`. -/
def zeroFlow (d : EData) : EData := { d with flow := 0 }

/-- One edge of the original `MultiDiGraph`, as yielded by
`G.edges(keys=True, data=True)`: source, target, key, attribute data. -/
structure MEdge where
  u : PyVal
  v : PyVal
  key : PyVal
  data : EData
deriving DecidableEq, Repr

/-- The original `nx.MultiDiGraph`: its nodes and its edge list in the stable
iteration order of `G.edges(keys=True, data=True)`.  (Node attribute payloads
are never read by the decomposer and are omitted.) -/
structure MultiDiGraph where
  nodes : List PyVal
  edges : List MEdge
deriving DecidableEq, Repr

/-- Lookup in a Python dict modelled as an association list. -/
def alGet {α β : Type} [DecidableEq α] : List (α × β) → α → Option β
  | [], _ => none
  | (k, v) :: rest, a => if k = a then some v else alGet rest a

/-- Python dict assignment `d[a] = b`: update in place if the key exists,
otherwise append (CPython dicts preserve insertion order). -/
def alSet {α β : Type} [DecidableEq α] : List (α × β) → α → β → List (α × β)
  | [], a, b => [(a, b)]
  | (k, v) :: rest, a, b => if k = a then (k, b) :: rest else (k, v) :: alSet rest a b

/-- The simple `nx.DiGraph` produced by the decomposer: node list (insertion
order, no duplicates) and edge dict keyed by ordered node pair. -/
structure DiGraph where
  nodes : List PyVal
  edges : List ((PyVal × PyVal) × EData)
deriving DecidableEq, Repr

/-- `networkx` `add_node`: a no-op when the node is already present. -/
def addNode (g : DiGraph) (n : PyVal) : DiGraph :=
  if n ∈ g.nodes then g else { g with nodes := g.nodes ++ [n] }

/-- `networkx` `add_edge u v **data`: inserts missing endpoints, then sets the
attribute data of the edge `(u, v)`. -/
def addEdge (g : DiGraph) (u v : PyVal) (d : EData) : DiGraph :=
  let g := addNode g u
  let g := addNode g v
  { g with edges := alSet g.edges (u, v) d }

/-- `networkx` `has_edge u v`. -/
def hasEdge (g : DiGraph) (u v : PyVal) : Bool :=
  (alGet g.edges (u, v)).isSome

/-- The state built by `MultiGraphDecomposer._create_split_graph`:
`split_graph`, `edge_mapping` (split edge ↦ original `(u, v, key)`) and
`reverse_edge_mapping` (`defaultdict(dict)`: `(u, v)` ↦ key ↦ split entry). -/
structure Decomp where
  split_graph : DiGraph
  edge_mapping : List ((PyVal × PyVal) × (PyVal × PyVal × PyVal))
  reverse_edge_mapping : List ((PyVal × PyVal) × List (PyVal × (PyVal × PyVal)))
deriving DecidableEq, Repr

/-- Read `reverse_edge_mapping[(u, v)]` with `defaultdict` semantics. -/
def remGet (st : Decomp) (p : PyVal × PyVal) : List (PyVal × (PyVal × PyVal)) :=
  (alGet st.reverse_edge_mapping p).getD []

/-- Composite lookup `reverse_edge_mapping[(u, v)][key]` (as an `Option`). -/
def remGet2 (st : Decomp) (p : PyVal × PyVal) (k : PyVal) : Option (PyVal × PyVal) :=
  match alGet st.reverse_edge_mapping p with
  | none => none
  | some inner => alGet inner k

/-- Write `reverse_edge_mapping[(u, v)][key] = entry`. -/
def remSet (st : Decomp) (p : PyVal × PyVal) (k : PyVal) (entry : PyVal × PyVal) : Decomp :=
  { st with reverse_edge_mapping := alSet st.reverse_edge_mapping p (alSet (remGet st p) k entry) }

/-- The synthetic node name `f"{u}_{v}_split_{count}"`. -/
def splitNodeName (u v : PyVal) (c : Nat) : String :=
  pyStr u ++ "_" ++ pyStr v ++ "_split_" ++ Nat.repr c

/-- The synthetic node itself (always a Python string). -/
def splitNode (u v : PyVal) (c : Nat) : PyVal :=
  PyVal.str (splitNodeName u v c)

/-- The loop body of `_create_split_graph` for one original edge. -/
def processEdge (st : Decomp) (e : MEdge) : Decomp :=
  if hasEdge st.split_graph e.u e.v then
    -- parallel edge: split through a fresh synthetic node
    let count := (remGet st (e.u, e.v)).length
    let new_node := splitNode e.u e.v count
    let st := { st with split_graph := addNode st.split_graph new_node }
    let st := { st with split_graph := addEdge st.split_graph e.u new_node e.data }
    let st := { st with edge_mapping := alSet st.edge_mapping (e.u, new_node) (e.u, e.v, e.key) }
    let st := remSet st (e.u, e.v) e.key (e.u, new_node)
    let st := { st with split_graph := addEdge st.split_graph new_node e.v (zeroFlow e.data) }
    { st with edge_mapping := alSet st.edge_mapping (new_node, e.v) (e.u, e.v, e.key) }
  else
    -- first edge between u and v: add directly
    let st := { st with split_graph := addEdge st.split_graph e.u e.v e.data }
    let st := { st with edge_mapping := alSet st.edge_mapping (e.u, e.v) (e.u, e.v, e.key) }
    remSet st (e.u, e.v) e.key (e.u, e.v)

/-- `_create_split_graph`, run at construction over the whole edge list. -/
def createSplitGraph (G : MultiDiGraph) : Decomp :=
  G.edges.foldl processEdge
    { split_graph := { nodes := G.nodes.foldl (fun ns n => if n ∈ ns then ns else ns ++ [n]) [],
                       edges := [] }
      edge_mapping := []
      reverse_edge_mapping := [] }

/-- Decidable substring test on character lists: some rotation of `isPrefixOf`
over every suffix, matching Python's `pat in s` for strings. -/
def containsSub (pat : List Char) : List Char → Bool
  | [] => decide (pat = [])
  | c :: rest => pat.isPrefixOf (c :: rest) || containsSub pat rest

/-- Python `"_split_" in s` for a string `s`. -/
def strContainsSplit (s : String) : Bool :=
  containsSub "_split_".data s.data

/-- Python `"_split_" in x` for an arbitrary value: raises `TypeError` when
`x` is not a string. -/
def pyInSplit (x : PyVal) : Except PyErr Bool :=
  match x with
  | .str s => .ok (strContainsSplit s)
  | .int _ => .error (.typeError "argument of type int is not iterable")

/-- The consecutive pairs of a node path, `path[i], path[i+1]` for
`i in range(len(path) - 1)`. -/
def pathPairs : List PyVal → List (PyVal × PyVal)
  | [] => []
  | [_] => []
  | a :: b :: rest => (a, b) :: pathPairs (b :: rest)

/-- The message of the `ValueError` raised on a broken mapping. -/
def brokenMsg (u v : PyVal) : String :=
  "Edge " ++ pyStr u ++ "->" ++ pyStr v ++ " not found in edge mapping"

/-- First phase of `convert_path_to_original`: look up every consecutive pair
in `edge_mapping` (raising `ValueError` when absent) and keep the resolved
original edge when the split-edge source does not contain `"_split_"`. -/
def collectEdges (d : Decomp) : List (PyVal × PyVal) → Except PyErr (List (PyVal × PyVal × PyVal))
  | [] => .ok []
  | (u, v) :: rest =>
    match alGet d.edge_mapping (u, v) with
    | none => .error (.valueError (brokenMsg u v))
    | some oe => do
      let b ← pyInSplit u
      let tail ← collectEdges d rest
      .ok (if b then tail else oe :: tail)

/-- Second phase of `convert_path_to_original`: merge adjacent entries
`(u1,v1,k1) (u2,v2,k2)` when `k1 == k2 and "_split_" in v1 and u2 == v1`
(with Python's left-to-right short-circuit evaluation). -/
def simplifyPath : List (PyVal × PyVal × PyVal) → Except PyErr (List (PyVal × PyVal × PyVal))
  | [] => .ok []
  | [e] => .ok [e]
  | (u1, v1, k1) :: (u2, v2, k2) :: rest =>
    if k1 = k2 then do
      let b ← pyInSplit v1
      if b = true ∧ u2 = v1 then do
        let r ← simplifyPath rest
        .ok ((u1, v2, k1) :: r)
      else do
        let r ← simplifyPath ((u2, v2, k2) :: rest)
        .ok ((u1, v1, k1) :: r)
    else do
      let r ← simplifyPath ((u2, v2, k2) :: rest)
      .ok ((u1, v1, k1) :: r)

/-- `convert_path_to_original`. -/
def convert_path_to_original (d : Decomp) (path : List PyVal) :
    Except PyErr (List (PyVal × PyVal × PyVal)) := do
  let col ← collectEdges d (pathPairs path)
  simplifyPath col

/-- `convert_edge_to_original`: plain `edge_mapping.get(edge, None)`. -/
def convert_edge_to_original (d : Decomp) (e : PyVal × PyVal) :
    Option (PyVal × PyVal × PyVal) :=
  alGet d.edge_mapping e

/-- `convert_original_to_split`. -/
def convert_original_to_split (d : Decomp) (e : PyVal × PyVal × PyVal) :
    List (PyVal × PyVal) :=
  match alGet d.reverse_edge_mapping (e.1, e.2.1) with
  | none => []
  | some inner =>
    match alGet inner e.2.2 with
    | none => []
    | some se =>
      match se.2 with
      | .str s =>
        if strContainsSplit s then [(e.1, se.2), (se.2, e.2.1)] else [se]
      | .int _ => [se]

/-- Python `set(...)` of a list: deduplicate, modelled in first-occurrence
order. -/
def setInsert (s : List (PyVal × PyVal)) (x : PyVal × PyVal) : List (PyVal × PyVal) :=
  if x ∈ s then s else s ++ [x]

/-- Build a set from an iterable. -/
def setFrom (l : List (PyVal × PyVal)) : List (PyVal × PyVal) :=
  l.foldl setInsert []

/-- The loop of `get_ignore_split_edges` over `split_graph.edges(data=True)`:
add each edge whose source contains `"_split_"` (raising `TypeError` on a
non-string source). -/
def ignoreLoop (s : List (PyVal × PyVal)) :
    List ((PyVal × PyVal) × EData) → Except PyErr (List (PyVal × PyVal))
  | [] => .ok s
  | (uv, _) :: rest => do
    let b ← pyInSplit uv.1
    ignoreLoop (if b then setInsert s uv else s) rest

/-- `get_ignore_split_edges`. -/
def get_ignore_split_edges (d : Decomp) (edges_to_ignore : List (PyVal × PyVal)) :
    Except PyErr (List (PyVal × PyVal)) :=
  ignoreLoop (setFrom edges_to_ignore) d.split_graph.edges

deriving instance DecidableEq for Except

/-! ### In/out-degree over the split `DiGraph` (networkx `in_degree`/`out_degree`) -/

/-- Number of split-graph edges entering `n`. -/
def inDeg (g : DiGraph) (n : PyVal) : Nat :=
  (g.edges.filter (fun kv => kv.1.2 = n)).length

/-- Number of split-graph edges leaving `n`. -/
def outDeg (g : DiGraph) (n : PyVal) : Nat :=
  (g.edges.filter (fun kv => kv.1.1 = n)).length

/-! ### Concrete instances used by the claims -/

/-- Node `A` of the spec scenario. -/
def vA : PyVal := .str "A"

/-- Node `B` of the spec scenario. -/
def vB : PyVal := .str "B"

/-- Node `C` of the spec scenario. -/
def vC : PyVal := .str "C"

/-- Key `k0` (the default first `networkx` key). -/
def k0 : PyVal := .int 0

/-- Key `k1` (the default second `networkx` key). -/
def k1 : PyVal := .int 1

/-- Attribute data `flow=5`. -/
def dat5 : EData := { flow := 5, extra := [] }

/-- Attribute data `flow=3`. -/
def dat3 : EData := { flow := 3, extra := [] }

/-- Attribute data `flow=0`. -/
def dat0 : EData := { flow := 0, extra := [] }

/-- The scenario multigraph of the spec: nodes `{A,B,C}`, edges
`(A,B,k0,flow=5)`, `(A,B,k1,flow=3)`, `(B,C,k0,flow=5)` in this order. -/
def Gscn : MultiDiGraph :=
  { nodes := [vA, vB, vC]
    edges := [ { u := vA, v := vB, key := k0, data := dat5 },
               { u := vA, v := vB, key := k1, data := dat3 },
               { u := vB, v := vC, key := k0, data := dat5 } ] }

/-- The decomposer built from the scenario graph. -/
def dscn : Decomp := createSplitGraph Gscn

/-- The synthetic node the code actually creates for the scenario
(count is `len(reverse_edge_mapping[(A,B)])`, which is already `1` because
the first-edge branch also records a reverse-mapping entry). -/
def sAB1 : PyVal := .str "A_B_split_1"

/-- An original node whose name contains the reserved marker `"_split_"`:
a legitimate multigraph node identifier that defeats the substring test. -/
def Bs0 : PyVal := .str "B_split_0"

/-- A multigraph with a single direct edge to the marker-named node. -/
def GmarkerNode : MultiDiGraph :=
  { nodes := [vA, Bs0], edges := [ { u := vA, v := Bs0, key := k0, data := dat5 } ] }

/-- Decomposer for `GmarkerNode`. -/
def dmark : Decomp := createSplitGraph GmarkerNode

/-- The string node `"5"`. -/
def v5s : PyVal := .str "5"

/-- The int node `5` (renders to the same string as `v5s`). -/
def v5i : PyVal := .int 5

/-- The synthetic node `"A_5_split_1"`, produced twice by `Gpun` because the
pairs `(A,"5")` and `(A,5)` render to the same `u_v` prefix. -/
def n5s1 : PyVal := .str "A_5_split_1"

/-- A multigraph punning the int node `5` with the string node `"5"`: both
pairs `(A,"5")` and `(A,5)` have two parallel edges, so both produce the
synthetic name `"A_5_split_1"` and overwrite each other's
`edge_mapping[(A, "A_5_split_1")]` entry. -/
def Gpun : MultiDiGraph :=
  { nodes := [vA, v5s, v5i, vB]
    edges := [ { u := vA, v := v5s, key := k0, data := dat5 },
               { u := vA, v := v5s, key := k1, data := dat3 },
               { u := vA, v := v5i, key := k0, data := dat5 },
               { u := vA, v := v5i, key := k1, data := dat3 },
               { u := v5s, v := vB, key := k1, data := dat5 } ] }

/-- Decomposer for `Gpun`. -/
def dpun : Decomp := createSplitGraph Gpun

/-- Node `"a"`. -/
def va : PyVal := .str "a"

/-- Node `"b_c"`. -/
def vbc : PyVal := .str "b_c"

/-- Node `"a_b"`. -/
def vab : PyVal := .str "a_b"

/-- Node `"c"`. -/
def vc : PyVal := .str "c"

/-- A marker-free multigraph in which the distinct pairs `(a, b_c)` and
`(a_b, c)` render to the same `"a_b_c"` prefix, so their second parallel
edges both create the synthetic node `"a_b_c_split_1"`. -/
def Gcross : MultiDiGraph :=
  { nodes := [va, vbc, vab, vc]
    edges := [ { u := va, v := vbc, key := k0, data := dat5 },
               { u := va, v := vbc, key := k1, data := dat3 },
               { u := vab, v := vc, key := k0, data := dat5 },
               { u := vab, v := vc, key := k1, data := dat3 } ] }

/-- Decomposer for `Gcross`. -/
def dcross : Decomp := createSplitGraph Gcross

/-- The state after `Gcross`'s first three edges, i.e. the moment the fourth
edge (the parallel edge for the pair `(a_b, c)`) is about to be processed. -/
def dcross3 : Decomp := createSplitGraph { Gcross with edges := Gcross.edges.take 3 }

/-- A multigraph whose node identifiers are ints. -/
def Gint : MultiDiGraph :=
  { nodes := [PyVal.int 1, PyVal.int 2]
    edges := [ { u := .int 1, v := .int 2, key := k0, data := dat5 } ] }

/-- Decomposer for `Gint`. -/
def dint : Decomp := createSplitGraph Gint

/-- Decimal value of a digit list, used to prove that `Nat.repr` is
injective. -/
def digitsVal (l : List Char) : Nat :=
  l.foldl (fun a c => 10 * a + (c.toNat - 48)) 0

/-! ### Predicates and canonical descriptions used in statements -/

/-- A node identifier whose string rendering avoids the reserved marker
`"_split_"`. -/
def markerFreeV (n : PyVal) : Prop :=
  strContainsSplit (pyStr n) = false

instance (n : PyVal) : Decidable (markerFreeV n) := by
  unfold markerFreeV
  infer_instance

/-- The identity triple `(u, v, key)` of an original edge. -/
def triple (e : MEdge) : PyVal × PyVal × PyVal :=
  (e.u, e.v, e.key)

/-- The edges of a list with the given `(source, target)` pair, in order. -/
def pairEdges (P : List MEdge) (p : PyVal × PyVal) : List MEdge :=
  P.filter (fun e => (e.u, e.v) = p)

/-- The keys of a pair's parallel edges, in processing order. -/
def pairKeys (P : List MEdge) (p : PyVal × PyVal) : List PyVal :=
  (pairEdges P p).map (fun e => e.key)

/-- The attribute data of a pair's parallel edges, in processing order. -/
def pairData (P : List MEdge) (p : PyVal × PyVal) : List EData :=
  (pairEdges P p).map (fun e => e.data)

/-- Input assumptions: the first three hold for every `networkx.MultiDiGraph`
(no duplicate nodes, edge endpoints are nodes, no duplicate `(u,v,key)`
triples); the last two exclude identifiers that collide with the
synthetic-name scheme (the correctness hazard the design notes call out). -/
structure WF (G : MultiDiGraph) : Prop where
  nodes_nodup : G.nodes.Nodup
  ends_mem : ∀ e ∈ G.edges, e.u ∈ G.nodes ∧ e.v ∈ G.nodes
  triples_nodup : (G.edges.map triple).Nodup
  marker_free : ∀ n ∈ G.nodes, markerFreeV n
  prefix_inj : ∀ e ∈ G.edges, ∀ e' ∈ G.edges,
    pyStr e.u ++ "_" ++ pyStr e.v = pyStr e'.u ++ "_" ++ pyStr e'.v →
    e.u = e'.u ∧ e.v = e'.v

/-- The canonical reverse-mapping entry of the `i`-th parallel edge for pair
`p`: the direct target for the first edge, the synthetic node for later
ones. -/
def canonEntry (p : PyVal × PyVal) (i : Nat) : PyVal × PyVal :=
  if i = 0 then p else (p.1, splitNode p.1 p.2 i)

/-- A split-edge key of synthetic shape for some pair of `P` and ordinal
`i ≥ 1`: either the entry half `u → synthetic` or the exit half
`synthetic → v`. -/
def synthShape (P : List MEdge) (q : PyVal × PyVal) : Prop :=
  ∃ p i, 1 ≤ i ∧ i < (pairKeys P p).length ∧
    (q = (p.1, splitNode p.1 p.2 i) ∨ q = (splitNode p.1 p.2 i, p.2))

/-- Invariant of the builder fold: a complete extensional characterization of
all three tables after processing the prefix `P` of the edge list, over the
original node list `gnodes`. -/
structure MI (gnodes : List PyVal) (P : List MEdge) (st : Decomp) : Prop where
  rem_at : ∀ p i k, (pairKeys P p)[i]? = some k →
    remGet2 st p k = some (canonEntry p i)
  rem_none : ∀ p k, k ∉ pairKeys P p → remGet2 st p k = none
  rem_len : ∀ p, (remGet st p).length = (pairKeys P p).length
  map_dir : ∀ p k, (pairKeys P p)[0]? = some k →
    alGet st.edge_mapping p = some (p.1, p.2, k)
  map_s1 : ∀ p i k, 1 ≤ i → (pairKeys P p)[i]? = some k →
    alGet st.edge_mapping (p.1, splitNode p.1 p.2 i) = some (p.1, p.2, k)
  map_s2 : ∀ p i k, 1 ≤ i → (pairKeys P p)[i]? = some k →
    alGet st.edge_mapping (splitNode p.1 p.2 i, p.2) = some (p.1, p.2, k)
  map_dom : ∀ q, (alGet st.edge_mapping q).isSome →
    pairEdges P q ≠ [] ∨ synthShape P q
  edge_dir : ∀ p dd, (pairData P p)[0]? = some dd →
    alGet st.split_graph.edges p = some dd
  edge_s1 : ∀ p i dd, 1 ≤ i → (pairData P p)[i]? = some dd →
    alGet st.split_graph.edges (p.1, splitNode p.1 p.2 i) = some dd
  edge_s2 : ∀ p i dd, 1 ≤ i → (pairData P p)[i]? = some dd →
    alGet st.split_graph.edges (splitNode p.1 p.2 i, p.2) = some (zeroFlow dd)
  edge_dom : ∀ q, (alGet st.split_graph.edges q).isSome →
    pairEdges P q ≠ [] ∨ synthShape P q
  edge_keys_nodup : (st.split_graph.edges.map Prod.fst).Nodup
  nodes_iff : ∀ n, n ∈ st.split_graph.nodes ↔
    n ∈ gnodes ∨ ∃ p i, 1 ≤ i ∧ i < (pairKeys P p).length ∧ n = splitNode p.1 p.2 i
  nodes_nodup : st.split_graph.nodes.Nodup

/-- The targets along the split representation of one original edge: `[v]`
for a direct edge, `[synthetic, v]` for a split one. -/
def segTargets (d : Decomp) (e : MEdge) : List PyVal :=
  (convert_original_to_split d (triple e)).map (fun q => q.2)

/-- The node tail of the split-graph walk realizing a list of original
edges. -/
def expandTails (d : Decomp) : List MEdge → List PyVal
  | [] => []
  | e :: rest => segTargets d e ++ expandTails d rest

/-- The split-graph node path realizing a list of original edges (empty list
for an empty walk). -/
def expandPath (d : Decomp) (ts : List MEdge) : List PyVal :=
  match ts with
  | [] => []
  | e :: _ => e.u :: expandTails d ts

/-- A walk of original edges starting at `x`: every edge departs where the
previous one arrived. -/
def chainFrom (x : PyVal) : List MEdge → Prop
  | [] => True
  | e :: rest => e.u = x ∧ chainFrom e.v rest

/-- A resolved original-edge entry whose recorded source is a marker-free
string (the shape of every entry the collect phase keeps). -/
def okSource (t : PyVal × PyVal × PyVal) : Prop :=
  ∃ s, t.1 = PyVal.str s ∧ strContainsSplit s = false

/-- Whether a split-graph edge key has a string source containing the
marker, i.e. whether `get_ignore_split_edges` adds it. -/
def markedSourceB (x : PyVal × PyVal) : Bool :=
  match x.1 with
  | .str s => strContainsSplit s
  | .int _ => false

/-- A graph with a marker-named original node that has an outgoing edge, so
a two-edge walk crosses the marker-named node. -/
def Gmark2 : MultiDiGraph :=
  { nodes := [vA, Bs0, vC]
    edges := [ { u := vA, v := Bs0, key := k0, data := dat5 },
               { u := Bs0, v := vC, key := k0, data := dat5 } ] }

/-- Decomposer for `Gmark2`. -/
def dmark2 : Decomp := createSplitGraph Gmark2

/-- The synthetic nodes the builder is expected to produce for a pair with
`k` parallel edges: one for each ordinal `1 .. k-1`. -/
def synthList (G : MultiDiGraph) (p : PyVal × PyVal) : List PyVal :=
  (List.range ((pairKeys G.edges p).length - 1)).map (fun j => splitNode p.1 p.2 (j + 1))

/-! ## Theorems -/

/-- C1 counterexample: the claimed synthetic node `A_B_split_0` does not
occur anywhere in the construction for the scenario; the code names the
synthetic node using `len(reverse_edge_mapping[(A,B)])`, which is `1` when
the second parallel edge is processed, so the expected `SplitGraph`,
`originalToSplit` and `expandIgnoreSet` values of the claim are all wrong. -/
theorem C1_counterexample :
    PyVal.str "A_B_split_0" ∉ dscn.split_graph.nodes ∧
    alGet dscn.split_graph.edges (vA, PyVal.str "A_B_split_0") = none ∧
    convert_original_to_split dscn (vA, vB, k1) ≠
      [(vA, PyVal.str "A_B_split_0"), (PyVal.str "A_B_split_0", vB)] ∧
    convert_path_to_original dscn [vA, PyVal.str "A_B_split_0", vB, vC] ≠
      Except.ok [(vA, vB, k1), (vB, vC, k0)] ∧
    get_ignore_split_edges dscn [] ≠ Except.ok [(PyVal.str "A_B_split_0", vB)] := by
  decide

/-- C1 (amended): for the scenario, construction produces exactly the split
graph with synthetic node `A_B_split_1` (not `A_B_split_0`): edge `A→B` with
flow 5 mapping to `k0`, edge `A→A_B_split_1` with flow 3 mapping to `k1`,
edge `A_B_split_1→B` with flow 0, and edge `B→C` with flow 5; moreover
`originalToSplit((A,B,k1)) = [(A,A_B_split_1),(A_B_split_1,B)]`,
`pathToOriginal([A,A_B_split_1,B,C]) = [(A,B,k1),(B,C,k0)]`, and
`expandIgnoreSet({}) = {(A_B_split_1,B)}`. -/
theorem C1_theorem :
    dscn.split_graph.nodes = [vA, vB, vC, sAB1] ∧
    dscn.split_graph.edges =
      [((vA, vB), dat5), ((vA, sAB1), dat3), ((sAB1, vB), dat0), ((vB, vC), dat5)] ∧
    alGet dscn.edge_mapping (vA, vB) = some (vA, vB, k0) ∧
    alGet dscn.edge_mapping (vA, sAB1) = some (vA, vB, k1) ∧
    alGet dscn.edge_mapping (sAB1, vB) = some (vA, vB, k1) ∧
    alGet dscn.edge_mapping (vB, vC) = some (vB, vC, k0) ∧
    convert_original_to_split dscn (vA, vB, k1) = [(vA, sAB1), (sAB1, vB)] ∧
    convert_path_to_original dscn [vA, sAB1, vB, vC] = Except.ok [(vA, vB, k1), (vB, vC, k0)] ∧
    get_ignore_split_edges dscn [] = Except.ok [(sAB1, vB)] := by
  decide

/-! ### Facts about decimal numerals (`Nat.repr`) -/

/-- Every digit character produced by `Nat.digitChar` below 10 is a decimal
digit. -/
theorem digitChar_isDigit {m : Nat} (h : m < 10) : (Nat.digitChar m).isDigit = true := by
  interval_cases m <;> decide

/-- The decimal value of a digit character below 10. -/
theorem digitChar_val {m : Nat} (h : m < 10) : (Nat.digitChar m).toNat - 48 = m := by
  interval_cases m <;> decide

/-- Unfolding equation for `Nat.toDigitsCore` in base 10. -/
theorem toDigitsCore_succ (fuel n : Nat) (acc : List Char) :
    Nat.toDigitsCore 10 (fuel + 1) n acc =
      if n / 10 = 0 then Nat.digitChar (n % 10) :: acc
      else Nat.toDigitsCore 10 fuel (n / 10) (Nat.digitChar (n % 10) :: acc) := rfl

/-- Every character produced by `Nat.toDigitsCore` in base 10 from a digit
accumulator is a digit. -/
theorem toDigitsCore_digits :
    ∀ (fuel n : Nat) (acc : List Char), (∀ c ∈ acc, c.isDigit = true) →
      ∀ c ∈ Nat.toDigitsCore 10 fuel n acc, c.isDigit = true := by
  intro fuel
  induction fuel with
  | zero => intro n acc hacc c hc; exact hacc c hc
  | succ fuel ih =>
    intro n acc hacc c hc
    rw [toDigitsCore_succ] at hc
    by_cases h0 : n / 10 = 0
    · rw [if_pos h0] at hc
      rcases List.mem_cons.mp hc with hc | hc
      · rw [hc]; exact digitChar_isDigit (Nat.mod_lt _ (by omega))
      · exact hacc c hc
    · rw [if_neg h0] at hc
      refine ih (n / 10) _ ?_ c hc
      intro c' hc'
      rcases List.mem_cons.mp hc' with hc' | hc'
      · rw [hc']; exact digitChar_isDigit (Nat.mod_lt _ (by omega))
      · exact hacc c' hc'

/-- The characters of `Nat.repr` are exactly `Nat.toDigits 10 n`. -/
theorem repr_data (n : Nat) : (Nat.repr n).data = Nat.toDigits 10 n := rfl

/-- Every character of a decimal numeral is a digit. -/
theorem repr_isDigit (n : Nat) : ∀ c ∈ (Nat.repr n).data, c.isDigit = true := by
  rw [repr_data, Nat.toDigits]
  exact toDigitsCore_digits _ n [] (by intro c hc; cases hc)

/-- The underscore never occurs in a decimal numeral. -/
theorem underscore_not_mem_repr (n : Nat) : '_' ∉ (Nat.repr n).data := by
  intro h
  have := repr_isDigit n '_' h
  simp [Char.isDigit] at this

/-- `Nat.toDigitsCore` prepends to its accumulator. -/
theorem toDigitsCore_acc :
    ∀ (fuel n : Nat) (acc : List Char),
      Nat.toDigitsCore 10 fuel n acc = Nat.toDigitsCore 10 fuel n [] ++ acc := by
  intro fuel
  induction fuel with
  | zero => intro n acc; rfl
  | succ fuel ih =>
    intro n acc
    rw [toDigitsCore_succ, toDigitsCore_succ]
    by_cases h0 : n / 10 = 0
    · rw [if_pos h0, if_pos h0]; rfl
    · rw [if_neg h0, if_neg h0]
      rw [ih (n / 10) (Nat.digitChar (n % 10) :: acc), ih (n / 10) [Nat.digitChar (n % 10)]]
      simp

/-- `digitsVal` over a snoc. -/
theorem digitsVal_snoc (l : List Char) (c : Char) :
    digitsVal (l ++ [c]) = 10 * digitsVal l + (c.toNat - 48) := by
  simp [digitsVal, List.foldl_append]

/-- `Nat.toDigitsCore` computes a numeral whose value is the input. -/
theorem digitsVal_toDigitsCore :
    ∀ (fuel n : Nat), n < fuel → digitsVal (Nat.toDigitsCore 10 fuel n []) = n := by
  intro fuel
  induction fuel with
  | zero => intro n h; omega
  | succ fuel ih =>
    intro n h
    rw [toDigitsCore_succ]
    by_cases h0 : n / 10 = 0
    · have hn : n < 10 := by
        have := Nat.div_eq_zero_iff (by omega : 0 < 10) |>.mp h0
        omega
      rw [if_pos h0]
      have hv : digitsVal [Nat.digitChar (n % 10)] = n % 10 := by
        simp [digitsVal, digitChar_val (Nat.mod_lt _ (by omega))]
      rw [hv, Nat.mod_eq_of_lt hn]
    · rw [if_neg h0]
      rw [toDigitsCore_acc, digitsVal_snoc]
      have hdiv : n / 10 < fuel := by
        have h1 : 0 < n := by
          by_contra hc
          push_neg at hc
          interval_cases n
          simp at h0
        have := Nat.div_lt_self h1 (by omega : 1 < 10)
        omega
      rw [ih (n / 10) hdiv, digitChar_val (Nat.mod_lt _ (by omega))]
      omega

/-- `Nat.repr` is injective: distinct naturals have distinct decimal
renderings. -/
theorem nat_repr_inj {m n : Nat} (h : Nat.repr m = Nat.repr n) : m = n := by
  have hd : (Nat.repr m).data = (Nat.repr n).data := by rw [h]
  rw [repr_data, repr_data, Nat.toDigits, Nat.toDigits] at hd
  have hm := digitsVal_toDigitsCore (m + 1) m (by omega)
  have hn := digitsVal_toDigitsCore (n + 1) n (by omega)
  rw [← hm, ← hn, hd]

/-! ### String facts about the synthetic-name scheme -/

/-- Two strings with the same character data are equal. -/
theorem string_data_inj {s t : String} (h : s.data = t.data) : s = t := by
  cases s
  cases t
  exact congrArg String.mk h

/-- Cancellation around an underscore separator: if neither block contains an
underscore, the blocks and tails of equal separated lists agree. -/
theorem sep_append_cancel :
    ∀ (d e a b : List Char), '_' ∉ d → '_' ∉ e →
      d ++ '_' :: a = e ++ '_' :: b → d = e ∧ a = b := by
  intro d
  induction d with
  | nil =>
    intro e a b _ he h
    cases e with
    | nil =>
      simp only [List.nil_append] at h
      exact ⟨rfl, by injection h⟩
    | cons c e' =>
      simp only [List.nil_append, List.cons_append] at h
      injection h with h1 h2
      exfalso
      apply he
      rw [← h1]
      exact List.mem_cons_self _ _
  | cons c d' ih =>
    intro e a b hd he h
    cases e with
    | nil =>
      simp only [List.cons_append, List.nil_append] at h
      injection h with h1 h2
      exfalso
      apply hd
      rw [h1]
      exact List.mem_cons_self _ _
    | cons c' e' =>
      simp only [List.cons_append] at h
      injection h with h1 h2
      have hd' : '_' ∉ d' := fun hm => hd (List.mem_cons_of_mem _ hm)
      have he' : '_' ∉ e' := fun hm => he (List.mem_cons_of_mem _ hm)
      obtain ⟨hde, hab⟩ := ih e' a b hd' he' h2
      exact ⟨by rw [h1, hde], hab⟩

/-- `containsSub` decides the infix relation, which is what Python's
`pat in s` computes on strings. -/
theorem containsSub_iff (pat : List Char) :
    ∀ l, containsSub pat l = true ↔ pat <:+: l := by
  intro l
  induction l with
  | nil =>
    simp [containsSub, List.infix_nil]
  | cons c rest ih =>
    simp [containsSub, List.infix_cons_iff, ih, List.isPrefixOf_iff_prefix]

/-- The synthetic name always contains the marker. -/
theorem strContainsSplit_splitNodeName (u v : PyVal) (c : Nat) :
    strContainsSplit (splitNodeName u v c) = true := by
  rw [strContainsSplit, containsSub_iff]
  refine ⟨(pyStr u ++ "_" ++ pyStr v).data, (Nat.repr c).data, ?_⟩
  rw [splitNodeName]
  simp [List.append_assoc]

/-- A marker-free string is never a synthetic name. -/
theorem markerFree_ne_splitNodeName {s : String} (h : strContainsSplit s = false)
    (u v : PyVal) (c : Nat) : s ≠ splitNodeName u v c := by
  intro he
  rw [he, strContainsSplit_splitNodeName] at h
  cases h

/-- A marker-free node is never a synthetic node. -/
theorem markerFreeV_ne_splitNode {n : PyVal} (h : markerFreeV n)
    (u v : PyVal) (c : Nat) : n ≠ splitNode u v c := by
  intro he
  cases n with
  | str s =>
    injection he with he'
    exact markerFree_ne_splitNodeName h u v c he'
  | int m => cases he

/-- Injectivity of the synthetic-name scheme, up to the `u_v` prefix: equal
names force equal prefixes and equal ordinals. -/
theorem splitNodeName_inj {u1 v1 u2 v2 : PyVal} {c1 c2 : Nat}
    (h : splitNodeName u1 v1 c1 = splitNodeName u2 v2 c2) :
    pyStr u1 ++ "_" ++ pyStr v1 = pyStr u2 ++ "_" ++ pyStr v2 ∧ c1 = c2 := by
  have hd : (pyStr u1 ++ "_" ++ pyStr v1).data ++ ("_split_".data ++ (Nat.repr c1).data) =
      (pyStr u2 ++ "_" ++ pyStr v2).data ++ ("_split_".data ++ (Nat.repr c2).data) := by
    have hdat := congrArg String.data h
    rw [splitNodeName, splitNodeName] at hdat
    simpa [List.append_assoc] using hdat
  have hrev := congrArg List.reverse hd
  have hM : ("_split_".data).reverse = '_' :: "tilps_".data := by decide
  rw [List.reverse_append, List.reverse_append, List.reverse_append, List.reverse_append,
      hM] at hrev
  simp only [List.cons_append, List.append_assoc] at hrev
  have hnd1 : '_' ∉ ((Nat.repr c1).data).reverse := by
    intro hm
    exact underscore_not_mem_repr c1 (List.mem_reverse.mp hm)
  have hnd2 : '_' ∉ ((Nat.repr c2).data).reverse := by
    intro hm
    exact underscore_not_mem_repr c2 (List.mem_reverse.mp hm)
  obtain ⟨h1, h2⟩ := sep_append_cancel _ _ _ _ hnd1 hnd2 hrev
  have hc : c1 = c2 :=
    nat_repr_inj (string_data_inj (List.reverse_injective h1))
  have hX : (pyStr u1 ++ "_" ++ pyStr v1).data.reverse =
      (pyStr u2 ++ "_" ++ pyStr v2).data.reverse := by
    simpa using h2
  exact ⟨string_data_inj (List.reverse_injective hX), hc⟩

/-! ### Association-list (Python dict) lemmas -/

/-- Reading back the key just written. -/
theorem alGet_alSet_self {α β : Type} [DecidableEq α] :
    ∀ (l : List (α × β)) (a : α) (b : β), alGet (alSet l a b) a = some b := by
  intro l a b
  induction l with
  | nil => simp [alSet, alGet]
  | cons kv rest ih =>
    by_cases h : kv.1 = a
    · simp [alSet, alGet, h]
    · simp only [alSet, alGet]
      rw [if_neg (by exact h)]
      simp only [alGet]
      rw [if_neg (by exact h)]
      exact ih

/-- Writing one key does not change the others. -/
theorem alGet_alSet_ne {α β : Type} [DecidableEq α] :
    ∀ (l : List (α × β)) (a a' : α) (b : β), a' ≠ a →
      alGet (alSet l a b) a' = alGet l a' := by
  intro l a a' b hne
  induction l with
  | nil =>
    simp only [alSet, alGet]
    rw [if_neg (fun hc => hne hc.symm)]
  | cons kv rest ih =>
    by_cases h : kv.1 = a
    · simp only [alSet]
      rw [if_pos (by exact h)]
      simp only [alGet]
      rw [if_neg (by rw [h]; intro hc; exact hne hc.symm), if_neg (by rw [h]; intro hc; exact hne hc.symm)]
    · simp only [alSet]
      rw [if_neg (by exact h)]
      simp only [alGet]
      by_cases h2 : kv.1 = a'
      · rw [if_pos (by exact h2), if_pos (by exact h2)]
      · rw [if_neg (by exact h2), if_neg (by exact h2)]
        exact ih

/-- Case analysis for reading after a write. -/
theorem alGet_alSet_cases {α β : Type} [DecidableEq α] {l : List (α × β)} {a a' : α}
    {b w : β} (h : alGet (alSet l a b) a' = some w) :
    (a' = a ∧ w = b) ∨ alGet l a' = some w := by
  by_cases he : a' = a
  · rw [he, alGet_alSet_self] at h
    exact Or.inl ⟨he, (Option.some.inj h).symm⟩
  · rw [alGet_alSet_ne l a a' b he] at h
    exact Or.inr h

/-- A present lookup is a key. -/
theorem alGet_isSome_iff {α β : Type} [DecidableEq α] :
    ∀ (l : List (α × β)) (a : α), (alGet l a).isSome ↔ a ∈ l.map Prod.fst := by
  intro l a
  induction l with
  | nil => simp [alGet]
  | cons kv rest ih =>
    simp only [alGet, List.map_cons, List.mem_cons]
    by_cases h : kv.1 = a
    · simp [h]
    · rw [if_neg (by exact h)]
      simp only [ih]
      constructor
      · intro hm; exact Or.inr hm
      · intro hm
        rcases hm with hm | hm
        · exact absurd hm.symm h
        · exact hm

/-- An absent lookup means the key is not present. -/
theorem alGet_eq_none_iff {α β : Type} [DecidableEq α] (l : List (α × β)) (a : α) :
    alGet l a = none ↔ a ∉ l.map Prod.fst := by
  rw [← alGet_isSome_iff]
  cases alGet l a <;> simp

/-- Keys after writing an existing key. -/
theorem alSet_keys_of_mem {α β : Type} [DecidableEq α] :
    ∀ (l : List (α × β)) (a : α) (b : β), a ∈ l.map Prod.fst →
      (alSet l a b).map Prod.fst = l.map Prod.fst := by
  intro l a b hm
  induction l with
  | nil => cases hm
  | cons kv rest ih =>
    by_cases h : kv.1 = a
    · simp [alSet, h]
    · simp only [alSet]
      rw [if_neg (by exact h)]
      simp only [List.map_cons]
      simp only [List.map_cons, List.mem_cons] at hm
      rcases hm with hm | hm
      · exact absurd hm.symm h
      · rw [ih hm]

/-- Keys after writing a fresh key. -/
theorem alSet_keys_of_not_mem {α β : Type} [DecidableEq α] :
    ∀ (l : List (α × β)) (a : α) (b : β), a ∉ l.map Prod.fst →
      (alSet l a b).map Prod.fst = l.map Prod.fst ++ [a] := by
  intro l a b hm
  induction l with
  | nil => simp [alSet]
  | cons kv rest ih =>
    simp only [List.map_cons, List.mem_cons] at hm
    push_neg at hm
    simp only [alSet]
    rw [if_neg (by intro hc; exact hm.1 hc.symm)]
    simp only [List.map_cons, List.cons_append, List.cons.injEq, true_and]
    exact ih hm.2

/-- Writing preserves key distinctness. -/
theorem alSet_keys_nodup {α β : Type} [DecidableEq α] {l : List (α × β)} {a : α} {b : β}
    (h : (l.map Prod.fst).Nodup) : ((alSet l a b).map Prod.fst).Nodup := by
  by_cases hm : a ∈ l.map Prod.fst
  · rw [alSet_keys_of_mem l a b hm]; exact h
  · rw [alSet_keys_of_not_mem l a b hm]
    refine List.Nodup.append h (List.nodup_singleton a) ?_
    intro x hx hx2
    simp only [List.mem_singleton] at hx2
    exact hm (hx2 ▸ hx)

/-- Length after writing an existing key. -/
theorem alSet_length_of_mem {α β : Type} [DecidableEq α] {l : List (α × β)} {a : α} (b : β)
    (h : a ∈ l.map Prod.fst) : (alSet l a b).length = l.length := by
  have := alSet_keys_of_mem l a b h
  have h1 : (alSet l a b).length = ((alSet l a b).map Prod.fst).length := by simp
  have h2 : l.length = (l.map Prod.fst).length := by simp
  rw [h1, h2, this]

/-- Length after writing a fresh key. -/
theorem alSet_length_of_not_mem {α β : Type} [DecidableEq α] {l : List (α × β)} {a : α} (b : β)
    (h : a ∉ l.map Prod.fst) : (alSet l a b).length = l.length + 1 := by
  have := alSet_keys_of_not_mem l a b h
  have h1 : (alSet l a b).length = ((alSet l a b).map Prod.fst).length := by simp
  have h2 : l.length = (l.map Prod.fst).length := by simp
  rw [h1, h2, this]
  simp

/-! ### Unfolding and simple invariants of the builder -/

/-- Membership after a dict write comes from the write or the old dict. -/
theorem mem_alSet_cases {α β : Type} [DecidableEq α] :
    ∀ {l : List (α × β)} {a : α} {b : β} {x : α × β},
      x ∈ alSet l a b → x = (a, b) ∨ x ∈ l := by
  intro l
  induction l with
  | nil =>
    intro a b x hx
    simp only [alSet, List.mem_singleton] at hx
    exact Or.inl hx
  | cons kv rest ih =>
    intro a b x hx
    simp only [alSet] at hx
    by_cases h : kv.1 = a
    · rw [if_pos h] at hx
      rcases List.mem_cons.mp hx with hx | hx
      · exact Or.inl (by rw [hx, h])
      · exact Or.inr (List.mem_cons_of_mem _ hx)
    · rw [if_neg h] at hx
      rcases List.mem_cons.mp hx with hx | hx
      · exact Or.inr (hx ▸ List.mem_cons_self _ _)
      · rcases ih hx with hx | hx
        · exact Or.inl hx
        · exact Or.inr (List.mem_cons_of_mem _ hx)

/-- The parallel-edge branch of `processEdge`, written as a single record. -/
theorem processEdge_pos (st : Decomp) (e : MEdge)
    (h : hasEdge st.split_graph e.u e.v = true) :
    processEdge st e =
      { split_graph :=
          addEdge (addEdge (addNode st.split_graph
              (splitNode e.u e.v (remGet st (e.u, e.v)).length))
            e.u (splitNode e.u e.v (remGet st (e.u, e.v)).length) e.data)
            (splitNode e.u e.v (remGet st (e.u, e.v)).length) e.v (zeroFlow e.data)
        edge_mapping :=
          alSet (alSet st.edge_mapping
              (e.u, splitNode e.u e.v (remGet st (e.u, e.v)).length) (e.u, e.v, e.key))
            (splitNode e.u e.v (remGet st (e.u, e.v)).length, e.v) (e.u, e.v, e.key)
        reverse_edge_mapping :=
          alSet st.reverse_edge_mapping (e.u, e.v)
            (alSet (remGet st (e.u, e.v)) e.key
              (e.u, splitNode e.u e.v (remGet st (e.u, e.v)).length)) } := by
  unfold processEdge
  rw [if_pos h]
  rfl

/-- The first-edge branch of `processEdge`, written as a single record. -/
theorem processEdge_neg (st : Decomp) (e : MEdge)
    (h : ¬ hasEdge st.split_graph e.u e.v = true) :
    processEdge st e =
      { split_graph := addEdge st.split_graph e.u e.v e.data
        edge_mapping := alSet st.edge_mapping (e.u, e.v) (e.u, e.v, e.key)
        reverse_edge_mapping :=
          alSet st.reverse_edge_mapping (e.u, e.v)
            (alSet (remGet st (e.u, e.v)) e.key (e.u, e.v)) } := by
  unfold processEdge
  rw [if_neg h]
  rfl

/-- Propagate an invariant through the builder fold. -/
theorem foldl_invariant {P : Decomp → Prop} {Q : MEdge → Prop}
    (step : ∀ st e, Q e → P st → P (processEdge st e)) :
    ∀ (l : List MEdge) (st : Decomp), (∀ e ∈ l, Q e) → P st →
      P (l.foldl processEdge st) := by
  intro l
  induction l with
  | nil => intro st _ h; exact h
  | cons e rest ih =>
    intro st hq h
    exact ih (processEdge st e) (fun e' he' => hq e' (List.mem_cons_of_mem _ he'))
      (step st e (hq e (List.mem_cons_self _ _)) h)

/-- In every reachable state, the source of a mapping key either equals the
recorded original source or is a marker-containing string (the exit half of a
split). -/
theorem map_source_shape (G : MultiDiGraph) :
    ∀ q w, alGet (createSplitGraph G).edge_mapping q = some w →
      q.1 = w.1 ∨ ∃ s, q.1 = PyVal.str s ∧ strContainsSplit s = true := by
  refine foldl_invariant
    (P := fun st => ∀ q w, alGet st.edge_mapping q = some w →
      q.1 = w.1 ∨ ∃ s, q.1 = PyVal.str s ∧ strContainsSplit s = true)
    (Q := fun _ => True) ?_ G.edges _ (fun _ _ => trivial) ?_
  · intro st e _ ih q w hq
    by_cases h : hasEdge st.split_graph e.u e.v = true
    · rw [processEdge_pos st e h] at hq
      simp only at hq
      rcases alGet_alSet_cases hq with ⟨hk, hw⟩ | hq2
      · refine Or.inr ⟨splitNodeName e.u e.v (remGet st (e.u, e.v)).length, ?_, ?_⟩
        · rw [hk]; rfl
        · exact strContainsSplit_splitNodeName _ _ _
      · rcases alGet_alSet_cases hq2 with ⟨hk, hw⟩ | hq3
        · rw [hk, hw]
          exact Or.inl rfl
        · exact ih q w hq3
    · rw [processEdge_neg st e h] at hq
      simp only at hq
      rcases alGet_alSet_cases hq with ⟨hk, hw⟩ | hq2
      · rw [hk, hw]
        exact Or.inl rfl
      · exact ih q w hq2
  · intro q w hq
    simp [alGet] at hq

/-! ### The merge pass never fires on entries with marker-free sources -/

/-- Bind on `Except` applied to a success. -/
theorem except_bind_ok {ε α β : Type} (a : α) (f : α → Except ε β) :
    (Except.ok a >>= f : Except ε β) = f a := rfl

/-- Bind on `Except` applied to a failure. -/
theorem except_bind_error {ε α β : Type} (e : ε) (f : α → Except ε β) :
    ((Except.error e : Except ε α) >>= f : Except ε β) = Except.error e := rfl

/-- If every entry's source is a marker-free string, a successful merge pass
returns its input unchanged. -/
theorem simplify_ok_eq :
    ∀ (n : Nat) (l : List (PyVal × PyVal × PyVal)), l.length ≤ n →
      (∀ t ∈ l, okSource t) →
      ∀ res, simplifyPath l = .ok res → res = l := by
  intro n
  induction n with
  | zero =>
    intro l hl _ res h
    have : l = [] := List.eq_nil_of_length_eq_zero (Nat.le_zero.mp hl)
    rw [this] at h ⊢
    simp only [simplifyPath] at h
    exact (Except.ok.inj h).symm
  | succ n ih =>
    intro l hl hsrc res h
    match l with
    | [] =>
      simp only [simplifyPath] at h
      exact (Except.ok.inj h).symm
    | [e] =>
      simp only [simplifyPath] at h
      exact (Except.ok.inj h).symm
    | (u1, v1, k1) :: (u2, v2, k2) :: rest =>
      simp only [simplifyPath] at h
      by_cases hk : k1 = k2
      · rw [if_pos hk] at h
        cases hv1 : pyInSplit v1 with
        | error err => rw [hv1, except_bind_error] at h; cases h
        | ok b =>
          rw [hv1, except_bind_ok] at h
          by_cases hcond : b = true ∧ u2 = v1
          · exfalso
            obtain ⟨hs2, h2a, h2b⟩ := hsrc (u2, v2, k2) (by simp)
            simp only at h2a
            rw [hcond.2] at h2a
            rw [h2a] at hv1
            simp only [pyInSplit] at hv1
            have : b = strContainsSplit hs2 := (Except.ok.inj hv1).symm
            rw [this, h2b] at hcond
            cases hcond.1
          · rw [if_neg hcond] at h
            cases hr : simplifyPath ((u2, v2, k2) :: rest) with
            | error err => rw [hr, except_bind_error] at h; cases h
            | ok r =>
              rw [hr, except_bind_ok] at h
              have hrl : r = (u2, v2, k2) :: rest := by
                refine ih _ ?_ ?_ r hr
                · simp only [List.length_cons] at hl ⊢; omega
                · intro t ht; exact hsrc t (List.mem_cons_of_mem _ ht)
              have : res = (u1, v1, k1) :: r := (Except.ok.inj h).symm
              rw [this, hrl]
      · rw [if_neg hk] at h
        cases hr : simplifyPath ((u2, v2, k2) :: rest) with
        | error err => rw [hr, except_bind_error] at h; cases h
        | ok r =>
          rw [hr, except_bind_ok] at h
          have hrl : r = (u2, v2, k2) :: rest := by
            refine ih _ ?_ ?_ r hr
            · simp only [List.length_cons] at hl ⊢; omega
            · intro t ht; exact hsrc t (List.mem_cons_of_mem _ ht)
          have : res = (u1, v1, k1) :: r := (Except.ok.inj h).symm
          rw [this, hrl]

/-- Every entry kept by a successful collect phase over a built decomposer
has a marker-free string source. -/
theorem collect_sources (G : MultiDiGraph) :
    ∀ (pp : List (PyVal × PyVal)) res,
      collectEdges (createSplitGraph G) pp = .ok res → ∀ t ∈ res, okSource t := by
  intro pp
  induction pp with
  | nil =>
    intro res h t ht
    simp only [collectEdges] at h
    rw [← Except.ok.inj h] at ht
    cases ht
  | cons q rest ih =>
    intro res h t ht
    obtain ⟨u, v⟩ := q
    cases hm : alGet (createSplitGraph G).edge_mapping (u, v) with
    | none => simp only [collectEdges, hm] at h; cases h
    | some oe =>
      simp only [collectEdges, hm] at h
      cases u with
      | int m =>
        rw [show pyInSplit (PyVal.int m) =
              .error (.typeError "argument of type int is not iterable") from rfl,
            except_bind_error] at h
        cases h
      | str s =>
        rw [show pyInSplit (PyVal.str s) = .ok (strContainsSplit s) from rfl,
            except_bind_ok] at h
        cases hc : collectEdges (createSplitGraph G) rest with
        | error err => rw [hc, except_bind_error] at h; cases h
        | ok tail =>
          rw [hc, except_bind_ok] at h
          have hres : res = if strContainsSplit s then tail else oe :: tail :=
            (Except.ok.inj h).symm
          by_cases hb : strContainsSplit s = true
          · rw [hres, if_pos hb] at ht
            exact ih tail hc t ht
          · rw [hres, if_neg hb] at ht
            rcases List.mem_cons.mp ht with ht | ht
            · rcases map_source_shape G (PyVal.str s, v) oe hm with h1 | ⟨s', hs', hmk⟩
              · refine ⟨s, ?_, by simpa using hb⟩
                rw [ht, ← h1]
              · exfalso
                have : s' = s := by
                  injection hs' with h2
                  exact h2.symm
                rw [this] at hmk
                exact hb hmk
            · exact ih tail hc t ht

/-- C4: for every node sequence the full `convert_path_to_original` accepts,
the merge pass never fires: the output equals the source-filtered list that
the collect phase produced, i.e. the filter-only restriction is equivalent to
the full implementation on all accepted inputs. -/
theorem C4_theorem (G : MultiDiGraph) (path : List PyVal)
    (res : List (PyVal × PyVal × PyVal))
    (h : convert_path_to_original (createSplitGraph G) path = .ok res) :
    collectEdges (createSplitGraph G) (pathPairs path) = .ok res := by
  rw [convert_path_to_original] at h
  cases hc : collectEdges (createSplitGraph G) (pathPairs path) with
  | error err => rw [hc, except_bind_error] at h; cases h
  | ok col =>
    rw [hc, except_bind_ok] at h
    have : res = col :=
      simplify_ok_eq col.length col (Nat.le_refl _) (collect_sources G _ col hc) res h
    rw [this]

/-- C4 witness: the scenario path, on which the accepted output is indeed the
collect-phase output. -/
theorem C4_witness :
    collectEdges (createSplitGraph Gscn) (pathPairs [vA, sAB1, vB, vC]) =
      .ok [(vA, vB, k1), (vB, vC, k0)] :=
  C4_theorem Gscn [vA, sAB1, vB, vC] [(vA, vB, k1), (vB, vC, k0)] (by decide)

/-! ### C10: the substring test raises `TypeError` on non-string nodes -/

/-- The exclusion-set loop fails with `TypeError` as soon as any edge source
is not a string. -/
theorem ignoreLoop_typeError :
    ∀ (l : List ((PyVal × PyVal) × EData)) (s : List (PyVal × PyVal)),
      (∃ kv ∈ l, kv.1.1.isStr = false) →
      ignoreLoop s l = .error (.typeError "argument of type int is not iterable") := by
  intro l
  induction l with
  | nil => intro s h; rcases h with ⟨kv, hm, _⟩; cases hm
  | cons kv rest ih =>
    intro s h
    obtain ⟨⟨u, v⟩, dd⟩ := kv
    cases u with
    | int m => rfl
    | str s0 =>
      rcases h with ⟨kv', hm', hs'⟩
      rcases List.mem_cons.mp hm' with hm' | hm'
      · rw [hm'] at hs'; cases hs'
      · show (do
            let b ← pyInSplit (PyVal.str s0)
            ignoreLoop (if b then setInsert s (PyVal.str s0, v) else s) rest) =
          Except.error (.typeError "argument of type int is not iterable")
        rw [show pyInSplit (PyVal.str s0) = .ok (strContainsSplit s0) from rfl,
            except_bind_ok]
        exact ih _ ⟨kv', hm', hs'⟩

/-- C10: the synthetic-node test is a substring check on node identifiers, so
on the int-labelled graph `Gint` a valid path (both nodes mapped) makes
`convert_path_to_original` raise `TypeError` rather than the broken-mapping
`ValueError`; and `get_ignore_split_edges` raises `TypeError` whenever any
split-graph edge has a non-string source. -/
theorem C10_theorem :
    (alGet dint.edge_mapping (PyVal.int 1, PyVal.int 2) = some (PyVal.int 1, PyVal.int 2, k0) ∧
     convert_path_to_original dint [PyVal.int 1, PyVal.int 2] =
       .error (.typeError "argument of type int is not iterable")) ∧
    ∀ (d : Decomp) (S : List (PyVal × PyVal)),
      (∃ kv ∈ d.split_graph.edges, kv.1.1.isStr = false) →
      get_ignore_split_edges d S =
        .error (.typeError "argument of type int is not iterable") := by
  constructor
  · exact ⟨by decide, by decide⟩
  · intro d S h
    exact ignoreLoop_typeError d.split_graph.edges (setFrom S) h

/-- C10 witness: the universal `TypeError` statement applied to the concrete
int-labelled graph. -/
theorem C10_witness :
    get_ignore_split_edges dint [] =
      .error (.typeError "argument of type int is not iterable") :=
  C10_theorem.2 dint [] ⟨((PyVal.int 1, PyVal.int 2), dat5), by decide, rfl⟩

/-! ### Set-model lemmas for `get_ignore_split_edges` -/

/-- Membership in an inserted set. -/
theorem mem_setInsert {s : List (PyVal × PyVal)} {x y : PyVal × PyVal} :
    x ∈ setInsert s y ↔ x = y ∨ x ∈ s := by
  unfold setInsert
  by_cases h : y ∈ s
  · rw [if_pos h]
    constructor
    · intro hx; exact Or.inr hx
    · intro hx; rcases hx with hx | hx
      · rw [hx]; exact h
      · exact hx
  · rw [if_neg h]
    simp only [List.mem_append, List.mem_singleton]
    constructor
    · intro hx; rcases hx with hx | hx
      · exact Or.inr hx
      · exact Or.inl hx
    · intro hx; rcases hx with hx | hx
      · exact Or.inr hx
      · exact Or.inl hx

/-- Insertion preserves distinctness. -/
theorem setInsert_nodup {s : List (PyVal × PyVal)} (h : s.Nodup) (x : PyVal × PyVal) :
    (setInsert s x).Nodup := by
  unfold setInsert
  by_cases hm : x ∈ s
  · rw [if_pos hm]; exact h
  · rw [if_neg hm]
    refine List.Nodup.append h (List.nodup_singleton x) ?_
    intro y hy hy2
    simp only [List.mem_singleton] at hy2
    exact hm (hy2 ▸ hy)

/-- Membership in a set built from an iterable. -/
theorem mem_setFrom {l : List (PyVal × PyVal)} {x : PyVal × PyVal} :
    x ∈ setFrom l ↔ x ∈ l := by
  have main : ∀ (l acc : List (PyVal × PyVal)) (x : PyVal × PyVal),
      x ∈ l.foldl setInsert acc ↔ x ∈ acc ∨ x ∈ l := by
    intro l
    induction l with
    | nil => intro acc x; simp
    | cons y rest ih =>
      intro acc x
      simp only [List.foldl_cons, ih, mem_setInsert, List.mem_cons]
      constructor
      · intro h
        rcases h with (h | h) | h
        · exact Or.inr (Or.inl h)
        · exact Or.inl h
        · exact Or.inr (Or.inr h)
      · intro h
        rcases h with h | h | h
        · exact Or.inl (Or.inr h)
        · exact Or.inl (Or.inl h)
        · exact Or.inr h
  rw [setFrom, main]
  simp

/-- A built set has no duplicates. -/
theorem setFrom_nodup (l : List (PyVal × PyVal)) : (setFrom l).Nodup := by
  have main : ∀ (l acc : List (PyVal × PyVal)), acc.Nodup → (l.foldl setInsert acc).Nodup := by
    intro l
    induction l with
    | nil => intro acc h; exact h
    | cons y rest ih => intro acc h; exact ih _ (setInsert_nodup h y)
  exact main l [] List.nodup_nil

/-- Building a set from a duplicate-free list returns it unchanged. -/
theorem setFrom_eq_self {l : List (PyVal × PyVal)} (h : l.Nodup) : setFrom l = l := by
  have main : ∀ (l acc : List (PyVal × PyVal)), (acc ++ l).Nodup →
      l.foldl setInsert acc = acc ++ l := by
    intro l
    induction l with
    | nil => intro acc _; simp
    | cons y rest ih =>
      intro acc hn
      have hy : y ∉ acc := by
        intro hy
        rcases List.nodup_append.mp hn with ⟨_, _, hdisj⟩
        exact hdisj hy (List.mem_cons_self _ _)
      have hstep : setInsert acc y = acc ++ [y] := by
        unfold setInsert
        rw [if_neg hy]
      simp only [List.foldl_cons, hstep]
      have : (acc ++ [y]) ++ rest = acc ++ y :: rest := by simp
      rw [ih (acc ++ [y]) (by rw [this]; exact hn), this]
  have := main l [] (by simpa using h)
  simpa [setFrom] using this

/-- The exclusion loop over string-sourced edges: it succeeds and returns
exactly the union of the accumulator with the marker-sourced edge keys. -/
theorem ignoreLoop_ok :
    ∀ (l : List ((PyVal × PyVal) × EData)) (s : List (PyVal × PyVal)),
      (∀ kv ∈ l, kv.1.1.isStr = true) →
      ∃ r, ignoreLoop s l = .ok r ∧
        (∀ x, x ∈ r ↔ x ∈ s ∨ ∃ dd, (x, dd) ∈ l ∧ markedSourceB x = true) ∧
        (s.Nodup → r.Nodup) ∧ (∀ x ∈ s, x ∈ r) := by
  intro l
  induction l with
  | nil =>
    intro s _
    refine ⟨s, rfl, ?_, fun h => h, fun x hx => hx⟩
    intro x
    simp
  | cons kv rest ih =>
    intro s hstr
    obtain ⟨⟨u, v⟩, dd⟩ := kv
    cases u with
    | int m => cases hstr ((PyVal.int m, v), dd) (List.mem_cons_self _ _)
    | str s0 =>
      have hloop : ignoreLoop s (((PyVal.str s0, v), dd) :: rest) =
          ignoreLoop (if strContainsSplit s0 then setInsert s (PyVal.str s0, v) else s) rest := by
        show (do
            let b ← pyInSplit (PyVal.str s0)
            ignoreLoop (if b then setInsert s (PyVal.str s0, v) else s) rest) = _
        rw [show pyInSplit (PyVal.str s0) = .ok (strContainsSplit s0) from rfl, except_bind_ok]
      obtain ⟨r, hr, hmem, hnd, hsub⟩ :=
        ih (if strContainsSplit s0 then setInsert s (PyVal.str s0, v) else s)
          (fun kv' hkv' => hstr kv' (List.mem_cons_of_mem _ hkv'))
      refine ⟨r, by rw [hloop]; exact hr, ?_, ?_, ?_⟩
      · intro x
        rw [hmem x]
        by_cases hb : strContainsSplit s0 = true
        · rw [if_pos hb]
          rw [mem_setInsert]
          constructor
          · intro h
            rcases h with (h | h) | ⟨dd', h1, h2⟩
            · exact Or.inr ⟨dd, by rw [h]; exact List.mem_cons_self _ _, by rw [h]; simpa [markedSourceB] using hb⟩
            · exact Or.inl h
            · exact Or.inr ⟨dd', List.mem_cons_of_mem _ h1, h2⟩
          · intro h
            rcases h with h | ⟨dd', h1, h2⟩
            · exact Or.inl (Or.inr h)
            · rcases List.mem_cons.mp h1 with h1 | h1
              · exact Or.inl (Or.inl (Prod.ext_iff.mp h1).1)
              · exact Or.inr ⟨dd', h1, h2⟩
        · rw [if_neg hb]
          constructor
          · intro h
            rcases h with h | ⟨dd', h1, h2⟩
            · exact Or.inl h
            · exact Or.inr ⟨dd', List.mem_cons_of_mem _ h1, h2⟩
          · intro h
            rcases h with h | ⟨dd', h1, h2⟩
            · exact Or.inl h
            · rcases List.mem_cons.mp h1 with h1 | h1
              · exfalso
                apply hb
                have hx : x = (PyVal.str s0, v) := (Prod.ext_iff.mp h1).1
                have hx1 : x.1 = PyVal.str s0 := by rw [hx]
                simp only [markedSourceB, hx1] at h2
                exact h2
              · exact Or.inr ⟨dd', h1, h2⟩
      · intro hs
        apply hnd
        by_cases hb : strContainsSplit s0 = true
        · rw [if_pos hb]; exact setInsert_nodup hs _
        · rw [if_neg hb]; exact hs
      · intro x hx
        apply hsub
        by_cases hb : strContainsSplit s0 = true
        · rw [if_pos hb]; rw [mem_setInsert]; exact Or.inr hx
        · rw [if_neg hb]; exact hx

/-- The exclusion loop adds nothing when every marker-sourced edge key is
already present. -/
theorem ignoreLoop_noop :
    ∀ (l : List ((PyVal × PyVal) × EData)) (s : List (PyVal × PyVal)),
      (∀ kv ∈ l, kv.1.1.isStr = true) →
      (∀ kv ∈ l, markedSourceB kv.1 = true → kv.1 ∈ s) →
      ignoreLoop s l = .ok s := by
  intro l
  induction l with
  | nil => intro s _ _; rfl
  | cons kv rest ih =>
    intro s hstr hin
    obtain ⟨⟨u, v⟩, dd⟩ := kv
    cases u with
    | int m => cases hstr ((PyVal.int m, v), dd) (List.mem_cons_self _ _)
    | str s0 =>
      have hloop : ignoreLoop s (((PyVal.str s0, v), dd) :: rest) =
          ignoreLoop (if strContainsSplit s0 then setInsert s (PyVal.str s0, v) else s) rest := by
        show (do
            let b ← pyInSplit (PyVal.str s0)
            ignoreLoop (if b then setInsert s (PyVal.str s0, v) else s) rest) = _
        rw [show pyInSplit (PyVal.str s0) = .ok (strContainsSplit s0) from rfl, except_bind_ok]
      rw [hloop]
      by_cases hb : strContainsSplit s0 = true
      · rw [if_pos hb]
        have hmem : (PyVal.str s0, v) ∈ s := by
          refine hin ((PyVal.str s0, v), dd) (List.mem_cons_self _ _) ?_
          simpa [markedSourceB] using hb
        rw [show setInsert s (PyVal.str s0, v) = s from by unfold setInsert; rw [if_pos hmem]]
        exact ih s (fun kv' h' => hstr kv' (List.mem_cons_of_mem _ h'))
          (fun kv' h' => hin kv' (List.mem_cons_of_mem _ h'))
      · rw [if_neg hb]
        exact ih s (fun kv' h' => hstr kv' (List.mem_cons_of_mem _ h'))
          (fun kv' h' => hin kv' (List.mem_cons_of_mem _ h'))

/-! ### Shape invariants for the reverse mapping and split-edge sources -/

/-- Rewrite a composite reverse-mapping lookup through `remGet`. -/
theorem remGet2_eq_alGet_remGet (st : Decomp) (p : PyVal × PyVal) (k : PyVal) :
    remGet2 st p k = alGet (remGet st p) k := by
  unfold remGet2 remGet
  cases alGet st.reverse_edge_mapping p with
  | none => rfl
  | some inner => rfl

/-- In every reachable state, a recorded reverse-mapping entry is the direct
pair itself or the synthetic entry half for that pair, and its pair was
actually an edge of the input. -/
theorem rem_entry_shape (G : MultiDiGraph) :
    ∀ p k entry, remGet2 (createSplitGraph G) p k = some entry →
      (∃ e ∈ G.edges, (e.u, e.v) = p) ∧
      (entry = (p.1, p.2) ∨ ∃ c, entry = (p.1, splitNode p.1 p.2 c)) := by
  refine foldl_invariant
    (P := fun st => ∀ p k entry, remGet2 st p k = some entry →
      (∃ e ∈ G.edges, (e.u, e.v) = p) ∧
      (entry = (p.1, p.2) ∨ ∃ c, entry = (p.1, splitNode p.1 p.2 c)))
    (Q := fun e => e ∈ G.edges) ?_ G.edges _ (fun e he => he) ?_
  · intro st e hQ ih p k entry hget
    by_cases h : hasEdge st.split_graph e.u e.v = true
    · rw [processEdge_pos st e h] at hget
      rw [remGet2_eq_alGet_remGet] at hget
      simp only [remGet] at hget
      by_cases hp : p = (e.u, e.v)
      · subst hp
        rw [alGet_alSet_self] at hget
        simp only [Option.getD_some] at hget
        rcases alGet_alSet_cases hget with ⟨_, hw⟩ | hold
        · refine ⟨⟨e, hQ, rfl⟩, ?_⟩
          exact Or.inr ⟨(remGet st (e.u, e.v)).length, by rw [hw]; rfl⟩
        · refine ih (e.u, e.v) k entry ?_
          rw [remGet2_eq_alGet_remGet]
          exact hold
      · rw [alGet_alSet_ne _ _ _ _ hp] at hget
        refine ih p k entry ?_
        rw [remGet2_eq_alGet_remGet]
        simp only [remGet]
        exact hget
    · rw [processEdge_neg st e h] at hget
      rw [remGet2_eq_alGet_remGet] at hget
      simp only [remGet] at hget
      by_cases hp : p = (e.u, e.v)
      · subst hp
        rw [alGet_alSet_self] at hget
        simp only [Option.getD_some] at hget
        rcases alGet_alSet_cases hget with ⟨_, hw⟩ | hold
        · refine ⟨⟨e, hQ, rfl⟩, ?_⟩
          exact Or.inl (by rw [hw])
        · refine ih (e.u, e.v) k entry ?_
          rw [remGet2_eq_alGet_remGet]
          exact hold
      · rw [alGet_alSet_ne _ _ _ _ hp] at hget
        refine ih p k entry ?_
        rw [remGet2_eq_alGet_remGet]
        simp only [remGet]
        exact hget
  · intro p k entry hget
    rw [remGet2_eq_alGet_remGet] at hget
    simp only [remGet, alGet] at hget
    cases hget

/-- Adding a node never changes the edge dict. -/
theorem addNode_edges (g : DiGraph) (n : PyVal) : (addNode g n).edges = g.edges := by
  unfold addNode
  by_cases h : n ∈ g.nodes
  · rw [if_pos h]
  · rw [if_neg h]

/-- The edge dict after `add_edge`. -/
theorem addEdge_edges (g : DiGraph) (u v : PyVal) (d : EData) :
    (addEdge g u v d).edges = alSet g.edges (u, v) d := by
  show alSet (addNode (addNode g u) v).edges (u, v) d = alSet g.edges (u, v) d
  rw [addNode_edges, addNode_edges]

/-- The marker test on an edge key's source, unfolded. -/
theorem markedSourceB_iff {x : PyVal × PyVal} :
    markedSourceB x = true ↔ ∃ s, x.1 = PyVal.str s ∧ strContainsSplit s = true := by
  rcases hx : x.1 with s | m
  · simp [markedSourceB, hx]
  · simp [markedSourceB, hx]

/-- In every reachable state, each split-graph edge source is either an
original edge source or a synthetic node. -/
theorem edge_source_shape (G : MultiDiGraph) :
    ∀ kv ∈ (createSplitGraph G).split_graph.edges,
      (∃ e ∈ G.edges, kv.1.1 = e.u) ∨ ∃ a b c, kv.1.1 = splitNode a b c := by
  refine foldl_invariant
    (P := fun st => ∀ kv ∈ st.split_graph.edges,
      (∃ e ∈ G.edges, kv.1.1 = e.u) ∨ ∃ a b c, kv.1.1 = splitNode a b c)
    (Q := fun e => e ∈ G.edges) ?_ G.edges _ (fun e he => he) ?_
  · intro st e hQ ih kv hkv
    by_cases h : hasEdge st.split_graph e.u e.v = true
    · rw [processEdge_pos st e h] at hkv
      simp only [addEdge_edges, addNode_edges] at hkv
      rcases mem_alSet_cases hkv with hkv | hkv
      · exact Or.inr ⟨e.u, e.v, (remGet st (e.u, e.v)).length, by rw [hkv]⟩
      · rcases mem_alSet_cases hkv with hkv | hkv
        · exact Or.inl ⟨e, hQ, by rw [hkv]⟩
        · exact ih kv hkv
    · rw [processEdge_neg st e h] at hkv
      simp only [addEdge_edges, addNode_edges] at hkv
      rcases mem_alSet_cases hkv with hkv | hkv
      · exact Or.inl ⟨e, hQ, by rw [hkv]⟩
      · exact ih kv hkv
  · intro kv hkv
    cases hkv

/-- C8 (amended): for a graph whose edge sources are marker-free strings,
`expandIgnoreSet` succeeds and returns exactly the union of the input set
with every split-graph edge whose source passes the `"_split_"` test — which
under these hypotheses is exactly the synthetic-source edges; the result is a
superset of the input, and the operation is idempotent. -/
theorem C8_theorem (G : MultiDiGraph)
    (hstr : ∀ e ∈ G.edges, e.u.isStr = true)
    (hmf : ∀ e ∈ G.edges, markerFreeV e.u)
    (S : List (PyVal × PyVal)) :
    (∃ r, get_ignore_split_edges (createSplitGraph G) S = .ok r ∧
      (∀ x, x ∈ r ↔ x ∈ S ∨ ∃ dd, (x, dd) ∈ (createSplitGraph G).split_graph.edges ∧
        markedSourceB x = true) ∧
      (∀ x ∈ S, x ∈ r) ∧
      get_ignore_split_edges (createSplitGraph G) r = .ok r) ∧
    (∀ x dd, (x, dd) ∈ (createSplitGraph G).split_graph.edges →
      (markedSourceB x = true ↔ ∃ a b c, x.1 = splitNode a b c)) := by
  have hsources : ∀ kv ∈ (createSplitGraph G).split_graph.edges, kv.1.1.isStr = true := by
    intro kv hkv
    rcases edge_source_shape G kv hkv with ⟨e, he, hue⟩ | ⟨a, b, c, hs⟩
    · rw [hue]; exact hstr e he
    · rw [hs]; rfl
  have hsyn : ∀ x dd, (x, dd) ∈ (createSplitGraph G).split_graph.edges →
      (markedSourceB x = true ↔ ∃ a b c, x.1 = splitNode a b c) := by
    intro x dd hx
    constructor
    · intro hmk
      rcases edge_source_shape G (x, dd) hx with ⟨e, he, hue⟩ | ⟨a, b, c, hs⟩
      · exfalso
        obtain ⟨s0, hxs, hsm⟩ := markedSourceB_iff.mp hmk
        have hm := hmf e he
        have heu : e.u = PyVal.str s0 := by rw [← hue]; exact hxs
        rw [markerFreeV, heu] at hm
        simp only [pyStr] at hm
        rw [hm] at hsm
        cases hsm
      · exact ⟨a, b, c, hs⟩
    · intro ⟨a, b, c, hs⟩
      refine markedSourceB_iff.mpr ⟨splitNodeName a b c, ?_, strContainsSplit_splitNodeName a b c⟩
      rw [hs]
      rfl
  refine ⟨?_, hsyn⟩
  obtain ⟨r, hr, hmem, hnd, hsub⟩ :=
    ignoreLoop_ok (createSplitGraph G).split_graph.edges (setFrom S) hsources
  have hrnd : r.Nodup := hnd (setFrom_nodup S)
  refine ⟨r, hr, ?_, ?_, ?_⟩
  · intro x
    rw [hmem x, mem_setFrom]
  · intro x hx
    exact hsub x (mem_setFrom.mpr hx)
  · show ignoreLoop (setFrom r) (createSplitGraph G).split_graph.edges = .ok r
    rw [setFrom_eq_self hrnd]
    refine ignoreLoop_noop _ r hsources ?_
    intro kv hkv hmk
    rw [hmem kv.1]
    exact Or.inr ⟨kv.2, by rw [show (kv.1, kv.2) = kv from rfl]; exact hkv, hmk⟩

/-- C8 witness: the scenario graph with the nonempty ignore set
`{(A, B)}`. -/
theorem C8_witness :
    (∃ r, get_ignore_split_edges (createSplitGraph Gscn) [(vA, vB)] = .ok r ∧
      (∀ x, x ∈ r ↔ x ∈ [(vA, vB)] ∨ ∃ dd, (x, dd) ∈ (createSplitGraph Gscn).split_graph.edges ∧
        markedSourceB x = true) ∧
      (∀ x ∈ [(vA, vB)], x ∈ r) ∧
      get_ignore_split_edges (createSplitGraph Gscn) r = .ok r) ∧
    (∀ x dd, (x, dd) ∈ (createSplitGraph Gscn).split_graph.edges →
      (markedSourceB x = true ↔ ∃ a b c, x.1 = splitNode a b c)) :=
  C8_theorem Gscn (by decide) (by decide) [(vA, vB)]

/-- C8 counterexample: on the int-labelled graph the function does not
return any set at all (in particular not the claimed union, which would be
`ok []`): it raises `TypeError`. -/
theorem C8_counterexample :
    get_ignore_split_edges dint [] ≠ .ok [] ∧
    get_ignore_split_edges dint [] =
      .error (.typeError "argument of type int is not iterable") := by
  decide

/-! ### C7: behavior of `convert_original_to_split` -/

/-- Unfold `convert_original_to_split` through the composite reverse
lookup. -/
theorem convert_original_to_split_eq (d : Decomp) (u v key : PyVal) :
    convert_original_to_split d (u, v, key) =
      match remGet2 d (u, v) key with
      | none => []
      | some se =>
        match se.2 with
        | .str s => if strContainsSplit s then [(u, se.2), (se.2, v)] else [se]
        | .int _ => [se] := by
  unfold convert_original_to_split remGet2
  cases alGet d.reverse_edge_mapping (u, v) with
  | none => rfl
  | some inner =>
    cases alGet inner key with
    | none => rfl
    | some se => rfl

/-- C7 (amended): over a well-formed marker-free graph, for every
`(u, v, key)`, `originalToSplit` returns the two-edge chain when the
recorded entry point is a synthetic node, the single edge `[(u, v)]` when the
recorded entry point is the direct target, and the empty sequence (without
any error: the function is total) when the pair or key is absent; moreover
the recorded entry is always of one of those two shapes. -/
theorem C7_theorem (G : MultiDiGraph)
    (hmf : ∀ n ∈ G.nodes, markerFreeV n)
    (hends : ∀ e ∈ G.edges, e.u ∈ G.nodes ∧ e.v ∈ G.nodes)
    (u v key : PyVal) :
    (remGet2 (createSplitGraph G) (u, v) key = none →
      convert_original_to_split (createSplitGraph G) (u, v, key) = []) ∧
    (∀ c, remGet2 (createSplitGraph G) (u, v) key = some (u, splitNode u v c) →
      convert_original_to_split (createSplitGraph G) (u, v, key) =
        [(u, splitNode u v c), (splitNode u v c, v)]) ∧
    (remGet2 (createSplitGraph G) (u, v) key = some (u, v) →
      convert_original_to_split (createSplitGraph G) (u, v, key) = [(u, v)]) ∧
    (∀ entry, remGet2 (createSplitGraph G) (u, v) key = some entry →
      entry = (u, v) ∨ ∃ c, entry = (u, splitNode u v c)) := by
  refine ⟨?_, ?_, ?_, ?_⟩
  · intro hnone
    rw [convert_original_to_split_eq, hnone]
  · intro c hsome
    rw [convert_original_to_split_eq, hsome]
    simp only [splitNode]
    rw [if_pos (strContainsSplit_splitNodeName u v c)]
  · intro hsome
    rw [convert_original_to_split_eq, hsome]
    obtain ⟨⟨e, he, hpe⟩, _⟩ := rem_entry_shape G (u, v) key (u, v) hsome
    have hvnode : v ∈ G.nodes := by
      have := (hends e he).2
      have hv : e.v = v := congrArg Prod.snd hpe
      rw [← hv]
      exact this
    cases v with
    | str s =>
      have hm := hmf (PyVal.str s) hvnode
      rw [markerFreeV] at hm
      simp only [pyStr] at hm
      show (if strContainsSplit s = true
          then [(u, PyVal.str s), (PyVal.str s, PyVal.str s)]
          else [(u, PyVal.str s)]) = [(u, PyVal.str s)]
      rw [if_neg (by rw [hm]; intro hc; cases hc)]
    | int m => rfl
  · intro entry hsome
    exact (rem_entry_shape G (u, v) key entry hsome).2

/-- C7 witness: the split case of the scenario, where the recorded entry
point for `(A, B, k1)` is the synthetic node with ordinal 1. -/
theorem C7_witness :
    convert_original_to_split (createSplitGraph Gscn) (vA, vB, k1) =
      [(vA, splitNode vA vB 1), (splitNode vA vB 1, vB)] :=
  (C7_theorem Gscn (by decide) (by decide) vA vB k1).2.1 1 (by decide)

/-- C7 counterexample: on a graph with the legitimate node `"B_split_0"`,
the recorded entry point of `(A, "B_split_0", k0)` is the direct target,
yet the function returns a two-edge chain instead of the single edge, because
the substring test misclassifies the direct target as synthetic. -/
theorem C7_counterexample :
    remGet2 dmark (vA, Bs0) k0 = some (vA, Bs0) ∧
    convert_original_to_split dmark (vA, Bs0, k0) ≠ [(vA, Bs0)] ∧
    convert_original_to_split dmark (vA, Bs0, k0) = [(vA, Bs0), (Bs0, Bs0)] := by
  decide

/-- C2 counterexample: the round trip `originalToSplit` → `edgeToOriginal`
fails (a) on a graph with a marker-containing node name, where the fabricated
second edge is unmapped, and (b) on the punning graph, where the synthetic
entry's mapping entry was overwritten by the later pair and maps back to a
different original edge. -/
theorem C2_counterexample :
    ({ u := vA, v := Bs0, key := k0, data := dat5 } ∈ GmarkerNode.edges ∧
     (Bs0, Bs0) ∈ convert_original_to_split dmark (vA, Bs0, k0) ∧
     convert_edge_to_original dmark (Bs0, Bs0) = none) ∧
    ({ u := vA, v := v5s, key := k1, data := dat3 } ∈ Gpun.edges ∧
     (vA, n5s1) ∈ convert_original_to_split dpun (vA, v5s, k1) ∧
     convert_edge_to_original dpun (vA, n5s1) = some (vA, v5i, k1) ∧
     convert_edge_to_original dpun (vA, n5s1) ≠ some (vA, v5s, k1)) := by
  decide

/-! ### Support lemmas for the builder invariant -/

/-- Membership in a pair's edge list. -/
theorem mem_pairEdges {P : List MEdge} {p : PyVal × PyVal} {x : MEdge} :
    x ∈ pairEdges P p ↔ x ∈ P ∧ (x.u, x.v) = p := by
  unfold pairEdges
  rw [List.mem_filter]
  constructor
  · intro ⟨h1, h2⟩
    exact ⟨h1, by simpa using h2⟩
  · intro ⟨h1, h2⟩
    exact ⟨h1, by simpa using h2⟩

/-- Appending an edge of a different pair leaves `pairEdges` unchanged. -/
theorem pairEdges_append_of_ne {P : List MEdge} {e : MEdge} {p : PyVal × PyVal}
    (h : (e.u, e.v) ≠ p) : pairEdges (P ++ [e]) p = pairEdges P p := by
  unfold pairEdges
  rw [List.filter_append]
  have : List.filter (fun x => decide ((x.u, x.v) = p)) [e] = [] := by
    simp [h]
  rw [this, List.append_nil]

/-- Appending an edge extends its own pair's edge list. -/
theorem pairEdges_append_self (P : List MEdge) (e : MEdge) :
    pairEdges (P ++ [e]) (e.u, e.v) = pairEdges P (e.u, e.v) ++ [e] := by
  unfold pairEdges
  rw [List.filter_append]
  have : List.filter (fun x => decide ((x.u, x.v) = (e.u, e.v))) [e] = [e] := by
    simp
  rw [this]

/-- `pairKeys` for a different pair after an append. -/
theorem pairKeys_append_of_ne {P : List MEdge} {e : MEdge} {p : PyVal × PyVal}
    (h : (e.u, e.v) ≠ p) : pairKeys (P ++ [e]) p = pairKeys P p := by
  unfold pairKeys
  rw [pairEdges_append_of_ne h]

/-- `pairKeys` for the appended edge's own pair. -/
theorem pairKeys_append_self (P : List MEdge) (e : MEdge) :
    pairKeys (P ++ [e]) (e.u, e.v) = pairKeys P (e.u, e.v) ++ [e.key] := by
  unfold pairKeys
  rw [pairEdges_append_self, List.map_append]
  rfl

/-- `pairData` for a different pair after an append. -/
theorem pairData_append_of_ne {P : List MEdge} {e : MEdge} {p : PyVal × PyVal}
    (h : (e.u, e.v) ≠ p) : pairData (P ++ [e]) p = pairData P p := by
  unfold pairData
  rw [pairEdges_append_of_ne h]

/-- `pairData` for the appended edge's own pair. -/
theorem pairData_append_self (P : List MEdge) (e : MEdge) :
    pairData (P ++ [e]) (e.u, e.v) = pairData P (e.u, e.v) ++ [e.data] := by
  unfold pairData
  rw [pairEdges_append_self, List.map_append]
  rfl

/-- `pairKeys` and `pairData` have the same length. -/
theorem pairKeys_length_eq_pairData_length (P : List MEdge) (p : PyVal × PyVal) :
    (pairKeys P p).length = (pairData P p).length := by
  unfold pairKeys pairData
  rw [List.length_map, List.length_map]

/-- A nonempty pair comes from an edge of the list. -/
theorem pair_witness {P : List MEdge} {p : PyVal × PyVal} (h : pairEdges P p ≠ []) :
    ∃ x ∈ P, (x.u, x.v) = p := by
  cases hpe : pairEdges P p with
  | nil => exact absurd hpe h
  | cons x rest =>
    have hx : x ∈ pairEdges P p := by rw [hpe]; exact List.mem_cons_self _ _
    obtain ⟨h1, h2⟩ := mem_pairEdges.mp hx
    exact ⟨x, h1, h2⟩

/-- A nonempty key list means a nonempty pair. -/
theorem pairEdges_ne_of_keys_pos {P : List MEdge} {p : PyVal × PyVal}
    (h : 0 < (pairKeys P p).length) : pairEdges P p ≠ [] := by
  intro hc
  unfold pairKeys at h
  rw [hc] at h
  cases h

/-- Nodes added by `addNode`. -/
theorem addNode_nodes_mem (g : DiGraph) (n x : PyVal) :
    x ∈ (addNode g n).nodes ↔ x = n ∨ x ∈ g.nodes := by
  unfold addNode
  by_cases h : n ∈ g.nodes
  · rw [if_pos h]
    constructor
    · intro hx; exact Or.inr hx
    · intro hx
      rcases hx with hx | hx
      · rw [hx]; exact h
      · exact hx
  · rw [if_neg h]
    simp only [List.mem_append, List.mem_singleton]
    constructor
    · intro hx
      rcases hx with hx | hx
      · exact Or.inr hx
      · exact Or.inl hx
    · intro hx
      rcases hx with hx | hx
      · exact Or.inr hx
      · exact Or.inl hx

/-- `addNode` preserves node distinctness. -/
theorem addNode_nodes_nodup {g : DiGraph} (h : g.nodes.Nodup) (n : PyVal) :
    (addNode g n).nodes.Nodup := by
  unfold addNode
  by_cases hm : n ∈ g.nodes
  · rw [if_pos hm]; exact h
  · rw [if_neg hm]
    refine List.Nodup.append h (List.nodup_singleton n) ?_
    intro x hx hx2
    simp only [List.mem_singleton] at hx2
    exact hm (hx2 ▸ hx)

/-- The nodes of `addEdge`. -/
theorem addEdge_nodes (g : DiGraph) (u v : PyVal) (d : EData) :
    (addEdge g u v d).nodes = (addNode (addNode g u) v).nodes := rfl

/-- Deduplicating fold over a duplicate-free list is the identity. -/
theorem nodesFold_eq_self {l : List PyVal} (h : l.Nodup) :
    l.foldl (fun ns n => if n ∈ ns then ns else ns ++ [n]) [] = l := by
  have main : ∀ (l acc : List PyVal), (acc ++ l).Nodup →
      l.foldl (fun ns n => if n ∈ ns then ns else ns ++ [n]) acc = acc ++ l := by
    intro l
    induction l with
    | nil => intro acc _; simp
    | cons y rest ih =>
      intro acc hn
      have hy : y ∉ acc := by
        intro hy
        rcases List.nodup_append.mp hn with ⟨_, _, hdisj⟩
        exact hdisj hy (List.mem_cons_self _ _)
      simp only [List.foldl_cons, if_neg hy]
      have hshift : (acc ++ [y]) ++ rest = acc ++ y :: rest := by simp
      rw [ih (acc ++ [y]) (by rw [hshift]; exact hn), hshift]
  simpa using main l [] (by simpa using h)

/-- Presence of a key after a dict write. -/
theorem alGet_isSome_alSet {α β : Type} [DecidableEq α] (l : List (α × β)) (a q : α) (b : β) :
    (alGet (alSet l a b) q).isSome = true ↔ q = a ∨ (alGet l q).isSome = true := by
  by_cases h : q = a
  · rw [h, alGet_alSet_self]
    simp
  · rw [alGet_alSet_ne _ _ _ _ h]
    constructor
    · intro hs; exact Or.inr hs
    · intro hs
      rcases hs with hs | hs
      · exact absurd hs h
      · exact hs

/-- `synthShape` is monotone in the processed prefix. -/
theorem synthShape_mono {P : List MEdge} {e : MEdge} {q : PyVal × PyVal}
    (h : synthShape P q) : synthShape (P ++ [e]) q := by
  obtain ⟨p, i, h1, h2, h3⟩ := h
  refine ⟨p, i, h1, ?_, h3⟩
  by_cases hp : (e.u, e.v) = p
  · rw [← hp] at h2 ⊢
    rw [pairKeys_append_self]
    rw [List.length_append]
    omega
  · rw [pairKeys_append_of_ne hp]
    exact h2

/-- Both endpoints of an edge of a well-formed graph are marker-free. -/
theorem wf_marker_of_mem {G : MultiDiGraph} (hWF : WF G) {e : MEdge} (he : e ∈ G.edges) :
    markerFreeV e.u ∧ markerFreeV e.v :=
  ⟨hWF.marker_free _ (hWF.ends_mem e he).1, hWF.marker_free _ (hWF.ends_mem e he).2⟩

/-- Under the prefix-injectivity assumption, the synthetic-name scheme is
injective across the graph's edge pairs. -/
theorem splitNode_pair_inj {G : MultiDiGraph} (hWF : WF G) {p q : PyVal × PyVal} {i j : Nat}
    (hp : ∃ x ∈ G.edges, (x.u, x.v) = p) (hq : ∃ x ∈ G.edges, (x.u, x.v) = q)
    (h : splitNode p.1 p.2 i = splitNode q.1 q.2 j) : p = q ∧ i = j := by
  obtain ⟨x, hxG, hxp⟩ := hp
  obtain ⟨y, hyG, hyq⟩ := hq
  have hname : splitNodeName p.1 p.2 i = splitNodeName q.1 q.2 j := by
    injection h
  obtain ⟨hpre, hij⟩ := splitNodeName_inj hname
  have hxu : x.u = p.1 := congrArg Prod.fst hxp
  have hxv : x.v = p.2 := congrArg Prod.snd hxp
  have hyu : y.u = q.1 := congrArg Prod.fst hyq
  have hyv : y.v = q.2 := congrArg Prod.snd hyq
  have hxy := hWF.prefix_inj x hxG y hyG (by rw [hxu, hxv, hyu, hyv]; exact hpre)
  refine ⟨?_, hij⟩
  rw [← hxp, ← hyq, hxy.1, hxy.2]

/-- The invariant holds for the initial state (before any edge is
processed). -/
theorem MI_base (G : MultiDiGraph) (hWF : WF G) :
    MI G.nodes []
      { split_graph :=
          { nodes := G.nodes.foldl (fun ns n => if n ∈ ns then ns else ns ++ [n]) []
            edges := [] }
        edge_mapping := []
        reverse_edge_mapping := [] } := by
  have hkeys : ∀ p : PyVal × PyVal, pairKeys [] p = [] := by
    intro p; rfl
  refine ⟨?_, ?_, ?_, ?_, ?_, ?_, ?_, ?_, ?_, ?_, ?_, ?_, ?_, ?_⟩
  · intro p i k h
    rw [hkeys p] at h
    cases h
  · intro p k _
    rfl
  · intro p
    rw [hkeys p]
    rfl
  · intro p k h
    rw [hkeys p] at h
    cases h
  · intro p i k _ h
    rw [hkeys p] at h
    cases h
  · intro p i k _ h
    rw [hkeys p] at h
    cases h
  · intro q h
    cases h
  · intro p dd h
    rw [show pairData [] p = [] from rfl] at h
    cases h
  · intro p i dd _ h
    rw [show pairData [] p = [] from rfl] at h
    cases h
  · intro p i dd _ h
    rw [show pairData [] p = [] from rfl] at h
    cases h
  · intro q h
    cases h
  · exact List.nodup_nil
  · intro n
    simp only
    rw [nodesFold_eq_self hWF.nodes_nodup]
    constructor
    · intro h; exact Or.inl h
    · intro h
      rcases h with h | ⟨p, i, h1, h2, _⟩
      · exact h
      · rw [hkeys p] at h2
        cases h2
  · simp only
    rw [nodesFold_eq_self hWF.nodes_nodup]
    exact hWF.nodes_nodup

/-- Unfold `synthShape`. -/
theorem synthShape_iff {P : List MEdge} {q : PyVal × PyVal} :
    synthShape P q ↔ ∃ p i, 1 ≤ i ∧ i < (pairKeys P p).length ∧
      (q = (p.1, splitNode p.1 p.2 i) ∨ q = (splitNode p.1 p.2 i, p.2)) := Iff.rfl

/-! ### Field values of `processEdge`, per branch -/

/-- Mapping after the first-edge branch. -/
theorem processEdge_neg_map (st : Decomp) (e : MEdge) (h : ¬ hasEdge st.split_graph e.u e.v = true) :
    (processEdge st e).edge_mapping = alSet st.edge_mapping (e.u, e.v) (e.u, e.v, e.key) := by
  rw [processEdge_neg st e h]

/-- Split edges after the first-edge branch. -/
theorem processEdge_neg_edges (st : Decomp) (e : MEdge) (h : ¬ hasEdge st.split_graph e.u e.v = true) :
    (processEdge st e).split_graph.edges = alSet st.split_graph.edges (e.u, e.v) e.data := by
  rw [processEdge_neg st e h]
  exact addEdge_edges _ _ _ _

/-- Split nodes after the first-edge branch. -/
theorem processEdge_neg_nodes (st : Decomp) (e : MEdge) (h : ¬ hasEdge st.split_graph e.u e.v = true) :
    (processEdge st e).split_graph.nodes = (addNode (addNode st.split_graph e.u) e.v).nodes := by
  rw [processEdge_neg st e h]
  rfl

/-- Reverse mapping after the first-edge branch. -/
theorem processEdge_neg_rem (st : Decomp) (e : MEdge) (h : ¬ hasEdge st.split_graph e.u e.v = true) :
    (processEdge st e).reverse_edge_mapping =
      alSet st.reverse_edge_mapping (e.u, e.v) (alSet (remGet st (e.u, e.v)) e.key (e.u, e.v)) := by
  rw [processEdge_neg st e h]

/-- Mapping after the parallel-edge branch. -/
theorem processEdge_pos_map (st : Decomp) (e : MEdge) (h : hasEdge st.split_graph e.u e.v = true) :
    (processEdge st e).edge_mapping =
      alSet (alSet st.edge_mapping
          (e.u, splitNode e.u e.v (remGet st (e.u, e.v)).length) (e.u, e.v, e.key))
        (splitNode e.u e.v (remGet st (e.u, e.v)).length, e.v) (e.u, e.v, e.key) := by
  rw [processEdge_pos st e h]

/-- Split edges after the parallel-edge branch. -/
theorem processEdge_pos_edges (st : Decomp) (e : MEdge) (h : hasEdge st.split_graph e.u e.v = true) :
    (processEdge st e).split_graph.edges =
      alSet (alSet st.split_graph.edges
          (e.u, splitNode e.u e.v (remGet st (e.u, e.v)).length) e.data)
        (splitNode e.u e.v (remGet st (e.u, e.v)).length, e.v) (zeroFlow e.data) := by
  rw [processEdge_pos st e h]
  rw [addEdge_edges, addEdge_edges, addNode_edges]

/-- Split nodes after the parallel-edge branch (as membership). -/
theorem processEdge_pos_nodes_mem (st : Decomp) (e : MEdge)
    (h : hasEdge st.split_graph e.u e.v = true) (x : PyVal) :
    x ∈ (processEdge st e).split_graph.nodes ↔
      x = splitNode e.u e.v (remGet st (e.u, e.v)).length ∨
      x = e.u ∨ x = e.v ∨ x ∈ st.split_graph.nodes := by
  rw [processEdge_pos st e h]
  show x ∈ (addEdge (addEdge (addNode st.split_graph
      (splitNode e.u e.v (remGet st (e.u, e.v)).length))
      e.u (splitNode e.u e.v (remGet st (e.u, e.v)).length) e.data)
      (splitNode e.u e.v (remGet st (e.u, e.v)).length) e.v (zeroFlow e.data)).nodes ↔ _
  rw [addEdge_nodes, addNode_nodes_mem, addNode_nodes_mem, addEdge_nodes,
      addNode_nodes_mem, addNode_nodes_mem, addNode_nodes_mem]
  tauto

/-- Reverse mapping after the parallel-edge branch. -/
theorem processEdge_pos_rem (st : Decomp) (e : MEdge) (h : hasEdge st.split_graph e.u e.v = true) :
    (processEdge st e).reverse_edge_mapping =
      alSet st.reverse_edge_mapping (e.u, e.v)
        (alSet (remGet st (e.u, e.v)) e.key
          (e.u, splitNode e.u e.v (remGet st (e.u, e.v)).length)) := by
  rw [processEdge_pos st e h]

/-- `remGet` of the new state at the processed pair (first-edge branch). -/
theorem neg_remGet_self (st : Decomp) (e : MEdge) (h : ¬ hasEdge st.split_graph e.u e.v = true) :
    remGet (processEdge st e) (e.u, e.v) = alSet (remGet st (e.u, e.v)) e.key (e.u, e.v) := by
  unfold remGet
  rw [processEdge_neg_rem st e h, alGet_alSet_self]
  rfl

/-- `remGet` of the new state at other pairs (first-edge branch). -/
theorem neg_remGet_ne (st : Decomp) (e : MEdge) (h : ¬ hasEdge st.split_graph e.u e.v = true)
    {p : PyVal × PyVal} (hp : p ≠ (e.u, e.v)) :
    remGet (processEdge st e) p = remGet st p := by
  unfold remGet
  rw [processEdge_neg_rem st e h, alGet_alSet_ne _ _ _ _ hp]

/-- `remGet` of the new state at the processed pair (parallel branch). -/
theorem pos_remGet_self (st : Decomp) (e : MEdge) (h : hasEdge st.split_graph e.u e.v = true) :
    remGet (processEdge st e) (e.u, e.v) =
      alSet (remGet st (e.u, e.v)) e.key
        (e.u, splitNode e.u e.v (remGet st (e.u, e.v)).length) := by
  unfold remGet
  rw [processEdge_pos_rem st e h, alGet_alSet_self]
  rfl

/-- `remGet` of the new state at other pairs (parallel branch). -/
theorem pos_remGet_ne (st : Decomp) (e : MEdge) (h : hasEdge st.split_graph e.u e.v = true)
    {p : PyVal × PyVal} (hp : p ≠ (e.u, e.v)) :
    remGet (processEdge st e) p = remGet st p := by
  unfold remGet
  rw [processEdge_pos_rem st e h, alGet_alSet_ne _ _ _ _ hp]

/-- The branch condition of the builder, characterized by the processed
prefix: the split graph has the edge `(u, v)` exactly when the pair already
had an edge. -/
theorem hasEdge_iff_pair {G : MultiDiGraph} (hWF : WF G) {P : List MEdge} {st : Decomp}
    (hMI : MI G.nodes P st) {e : MEdge} (he : e ∈ G.edges) :
    hasEdge st.split_graph e.u e.v = true ↔ pairEdges P (e.u, e.v) ≠ [] := by
  unfold hasEdge
  constructor
  · intro h
    rcases hMI.edge_dom (e.u, e.v) h with hdir | hsyn
    · exact hdir
    · obtain ⟨p, i, h1, h2, h3 | h3⟩ := synthShape_iff.mp hsyn
      · exfalso
        have hv : e.v = splitNode p.1 p.2 i := congrArg Prod.snd h3
        exact markerFreeV_ne_splitNode (wf_marker_of_mem hWF he).2 _ _ _ hv
      · exfalso
        have hu : e.u = splitNode p.1 p.2 i := congrArg Prod.fst h3
        exact markerFreeV_ne_splitNode (wf_marker_of_mem hWF he).1 _ _ _ hu
  · intro h
    have hlen : 0 < (pairData P (e.u, e.v)).length := by
      unfold pairData
      cases hc : pairEdges P (e.u, e.v) with
      | nil => exact absurd hc h
      | cons x rest => simp
    have hget : (pairData P (e.u, e.v))[0]? = some ((pairData P (e.u, e.v))[0]) :=
      List.getElem?_eq_getElem hlen
    rw [hMI.edge_dir (e.u, e.v) _ hget]
    rfl

/-- Invariant maintenance through the first-edge branch of the builder. -/
theorem MI_step_neg {G : MultiDiGraph} (hWF : WF G) {P : List MEdge} {e : MEdge}
    (he : e ∈ G.edges)
    {st : Decomp} (hMI : MI G.nodes P st)
    (hpe : pairEdges P (e.u, e.v) = []) :
    MI G.nodes (P ++ [e]) (processEdge st e) := by
  have hneg : ¬ hasEdge st.split_graph e.u e.v = true := by
    rw [hasEdge_iff_pair hWF hMI he]
    intro hc
    exact hc hpe
  have hks : pairKeys P (e.u, e.v) = [] := by unfold pairKeys; rw [hpe]; rfl
  have hpd : pairData P (e.u, e.v) = [] := by unfold pairData; rw [hpe]; rfl
  have hks' : pairKeys (P ++ [e]) (e.u, e.v) = [e.key] := by
    rw [pairKeys_append_self, hks]
    rfl
  have hpd' : pairData (P ++ [e]) (e.u, e.v) = [e.data] := by
    rw [pairData_append_self, hpd]
    rfl
  have hmfu := (wf_marker_of_mem hWF he).1
  have hmfv := (wf_marker_of_mem hWF he).2
  have hs1_ne : ∀ (p : PyVal × PyVal) (i : Nat), (p.1, splitNode p.1 p.2 i) ≠ (e.u, e.v) := by
    intro p i hc
    exact markerFreeV_ne_splitNode hmfv _ _ _ (congrArg Prod.snd hc).symm
  have hs2_ne : ∀ (p : PyVal × PyVal) (i : Nat), (splitNode p.1 p.2 i, p.2) ≠ (e.u, e.v) := by
    intro p i hc
    exact markerFreeV_ne_splitNode hmfu _ _ _ (congrArg Prod.fst hc).symm
  have hmono : ∀ q, pairEdges P q ≠ [] → pairEdges (P ++ [e]) q ≠ [] := by
    intro q hq
    by_cases h : (e.u, e.v) = q
    · rw [← h, pairEdges_append_self]
      simp
    · rw [pairEdges_append_of_ne h]
      exact hq
  refine ⟨?_, ?_, ?_, ?_, ?_, ?_, ?_, ?_, ?_, ?_, ?_, ?_, ?_, ?_⟩
  · -- rem_at
    intro p i k hk
    by_cases hp : p = (e.u, e.v)
    · subst hp
      rw [hks'] at hk
      rcases i with _ | n
      · rw [List.getElem?_cons_zero] at hk
        have hkk : e.key = k := Option.some.inj hk
        rw [remGet2_eq_alGet_remGet, neg_remGet_self st e hneg, ← hkk, alGet_alSet_self]
        rfl
      · rw [List.getElem?_cons_succ] at hk
        rw [show (([] : List PyVal))[n]? = none from rfl] at hk
        cases hk
    · have hne : (e.u, e.v) ≠ p := fun hc => hp hc.symm
      rw [pairKeys_append_of_ne hne] at hk
      rw [remGet2_eq_alGet_remGet, neg_remGet_ne st e hneg hp, ← remGet2_eq_alGet_remGet]
      exact hMI.rem_at p i k hk
  · -- rem_none
    intro p k hnk
    by_cases hp : p = (e.u, e.v)
    · subst hp
      rw [hks'] at hnk
      have hke : k ≠ e.key := by
        intro hc
        exact hnk (hc ▸ List.mem_cons_self _ _)
      rw [remGet2_eq_alGet_remGet, neg_remGet_self st e hneg,
          alGet_alSet_ne _ _ _ _ hke, ← remGet2_eq_alGet_remGet]
      refine hMI.rem_none (e.u, e.v) k ?_
      rw [hks]
      exact List.not_mem_nil k
    · have hne : (e.u, e.v) ≠ p := fun hc => hp hc.symm
      rw [pairKeys_append_of_ne hne] at hnk
      rw [remGet2_eq_alGet_remGet, neg_remGet_ne st e hneg hp, ← remGet2_eq_alGet_remGet]
      exact hMI.rem_none p k hnk
  · -- rem_len
    intro p
    by_cases hp : p = (e.u, e.v)
    · subst hp
      rw [neg_remGet_self st e hneg, hks']
      have hnone : alGet (remGet st (e.u, e.v)) e.key = none := by
        rw [← remGet2_eq_alGet_remGet]
        refine hMI.rem_none (e.u, e.v) e.key ?_
        rw [hks]
        exact List.not_mem_nil e.key
      have hnm := (alGet_eq_none_iff _ _).mp hnone
      rw [alSet_length_of_not_mem _ hnm, hMI.rem_len (e.u, e.v), hks]
      rfl
    · have hne : (e.u, e.v) ≠ p := fun hc => hp hc.symm
      rw [neg_remGet_ne st e hneg hp, pairKeys_append_of_ne hne]
      exact hMI.rem_len p
  · -- map_dir
    intro p k hk
    by_cases hp : p = (e.u, e.v)
    · subst hp
      rw [hks', List.getElem?_cons_zero] at hk
      have hkk : e.key = k := Option.some.inj hk
      rw [processEdge_neg_map st e hneg, alGet_alSet_self, ← hkk]
    · have hne : (e.u, e.v) ≠ p := fun hc => hp hc.symm
      rw [pairKeys_append_of_ne hne] at hk
      rw [processEdge_neg_map st e hneg, alGet_alSet_ne _ _ _ _ hp]
      exact hMI.map_dir p k hk
  · -- map_s1
    intro p i k h1 hk
    by_cases hp : p = (e.u, e.v)
    · subst hp
      rw [hks'] at hk
      rcases i with _ | n
      · cases h1
      · rw [List.getElem?_cons_succ] at hk
        rw [show (([] : List PyVal))[n]? = none from rfl] at hk
        cases hk
    · have hne : (e.u, e.v) ≠ p := fun hc => hp hc.symm
      rw [pairKeys_append_of_ne hne] at hk
      rw [processEdge_neg_map st e hneg, alGet_alSet_ne _ _ _ _ (hs1_ne p i)]
      exact hMI.map_s1 p i k h1 hk
  · -- map_s2
    intro p i k h1 hk
    by_cases hp : p = (e.u, e.v)
    · subst hp
      rw [hks'] at hk
      rcases i with _ | n
      · cases h1
      · rw [List.getElem?_cons_succ] at hk
        rw [show (([] : List PyVal))[n]? = none from rfl] at hk
        cases hk
    · have hne : (e.u, e.v) ≠ p := fun hc => hp hc.symm
      rw [pairKeys_append_of_ne hne] at hk
      rw [processEdge_neg_map st e hneg, alGet_alSet_ne _ _ _ _ (hs2_ne p i)]
      exact hMI.map_s2 p i k h1 hk
  · -- map_dom
    intro q hq
    rw [processEdge_neg_map st e hneg] at hq
    rcases (alGet_isSome_alSet _ _ _ _).mp hq with hq | hq
    · left
      rw [hq, pairEdges_append_self]
      simp
    · rcases hMI.map_dom q hq with hdir | hsyn
      · exact Or.inl (hmono q hdir)
      · exact Or.inr (synthShape_mono hsyn)
  · -- edge_dir
    intro p dd hd
    by_cases hp : p = (e.u, e.v)
    · subst hp
      rw [hpd', List.getElem?_cons_zero] at hd
      have hdd : e.data = dd := Option.some.inj hd
      rw [processEdge_neg_edges st e hneg, alGet_alSet_self, ← hdd]
    · have hne : (e.u, e.v) ≠ p := fun hc => hp hc.symm
      rw [pairData_append_of_ne hne] at hd
      rw [processEdge_neg_edges st e hneg, alGet_alSet_ne _ _ _ _ hp]
      exact hMI.edge_dir p dd hd
  · -- edge_s1
    intro p i dd h1 hd
    by_cases hp : p = (e.u, e.v)
    · subst hp
      rw [hpd'] at hd
      rcases i with _ | n
      · cases h1
      · rw [List.getElem?_cons_succ] at hd
        rw [show (([] : List EData))[n]? = none from rfl] at hd
        cases hd
    · have hne : (e.u, e.v) ≠ p := fun hc => hp hc.symm
      rw [pairData_append_of_ne hne] at hd
      rw [processEdge_neg_edges st e hneg, alGet_alSet_ne _ _ _ _ (hs1_ne p i)]
      exact hMI.edge_s1 p i dd h1 hd
  · -- edge_s2
    intro p i dd h1 hd
    by_cases hp : p = (e.u, e.v)
    · subst hp
      rw [hpd'] at hd
      rcases i with _ | n
      · cases h1
      · rw [List.getElem?_cons_succ] at hd
        rw [show (([] : List EData))[n]? = none from rfl] at hd
        cases hd
    · have hne : (e.u, e.v) ≠ p := fun hc => hp hc.symm
      rw [pairData_append_of_ne hne] at hd
      rw [processEdge_neg_edges st e hneg, alGet_alSet_ne _ _ _ _ (hs2_ne p i)]
      exact hMI.edge_s2 p i dd h1 hd
  · -- edge_dom
    intro q hq
    rw [processEdge_neg_edges st e hneg] at hq
    rcases (alGet_isSome_alSet _ _ _ _).mp hq with hq | hq
    · left
      rw [hq, pairEdges_append_self]
      simp
    · rcases hMI.edge_dom q hq with hdir | hsyn
      · exact Or.inl (hmono q hdir)
      · exact Or.inr (synthShape_mono hsyn)
  · -- edge_keys_nodup
    rw [processEdge_neg_edges st e hneg]
    exact alSet_keys_nodup hMI.edge_keys_nodup
  · -- nodes_iff
    intro n
    have hrhs : (∃ p i, 1 ≤ i ∧ i < (pairKeys (P ++ [e]) p).length ∧ n = splitNode p.1 p.2 i) ↔
        (∃ p i, 1 ≤ i ∧ i < (pairKeys P p).length ∧ n = splitNode p.1 p.2 i) := by
      constructor
      · rintro ⟨p, i, h1, h2, h3⟩
        by_cases hp : (e.u, e.v) = p
        · rw [← hp, hks'] at h2
          simp only [List.length_cons, List.length_nil] at h2
          omega
        · rw [pairKeys_append_of_ne hp] at h2
          exact ⟨p, i, h1, h2, h3⟩
      · rintro ⟨p, i, h1, h2, h3⟩
        refine ⟨p, i, h1, ?_, h3⟩
        by_cases hp : (e.u, e.v) = p
        · rw [← hp] at h2 ⊢
          rw [pairKeys_append_self, List.length_append]
          omega
        · rw [pairKeys_append_of_ne hp]
          exact h2
    rw [show (processEdge st e).split_graph.nodes =
          (addNode (addNode st.split_graph e.u) e.v).nodes from processEdge_neg_nodes st e hneg,
        addNode_nodes_mem, addNode_nodes_mem, hMI.nodes_iff n, hrhs]
    constructor
    · rintro (h | h | h | h)
      · exact Or.inl (h ▸ (hWF.ends_mem e he).2)
      · exact Or.inl (h ▸ (hWF.ends_mem e he).1)
      · exact Or.inl h
      · exact Or.inr h
    · rintro (h | h)
      · exact Or.inr (Or.inr (Or.inl h))
      · exact Or.inr (Or.inr (Or.inr h))
  · -- nodes_nodup
    have : (processEdge st e).split_graph.nodes =
        (addNode (addNode st.split_graph e.u) e.v).nodes := processEdge_neg_nodes st e hneg
    rw [this]
    exact addNode_nodes_nodup (addNode_nodes_nodup hMI.nodes_nodup _) _

/-- `addEdge` preserves node distinctness. -/
theorem addEdge_nodes_nodup {g : DiGraph} (h : g.nodes.Nodup) (u v : PyVal) (d : EData) :
    (addEdge g u v d).nodes.Nodup := by
  rw [addEdge_nodes]
  exact addNode_nodes_nodup (addNode_nodes_nodup h _) _

/-- Invariant maintenance through the parallel-edge branch of the builder. -/
theorem MI_step_pos {G : MultiDiGraph} (hWF : WF G) {P : List MEdge} {e : MEdge}
    (hPsub : ∀ x ∈ P, x ∈ G.edges) (he : e ∈ G.edges)
    (hfresh : e.key ∉ pairKeys P (e.u, e.v))
    {st : Decomp} (hMI : MI G.nodes P st)
    (hpe : pairEdges P (e.u, e.v) ≠ []) :
    MI G.nodes (P ++ [e]) (processEdge st e) := by
  have hpos : hasEdge st.split_graph e.u e.v = true := by
    rw [hasEdge_iff_pair hWF hMI he]
    exact hpe
  have hcount : (remGet st (e.u, e.v)).length = (pairKeys P (e.u, e.v)).length :=
    hMI.rem_len (e.u, e.v)
  have hkn1 : 1 ≤ (pairKeys P (e.u, e.v)).length := by
    unfold pairKeys
    cases hc : pairEdges P (e.u, e.v) with
    | nil => exact absurd hc hpe
    | cons x rest => simp
  have hks' : pairKeys (P ++ [e]) (e.u, e.v) = pairKeys P (e.u, e.v) ++ [e.key] :=
    pairKeys_append_self P e
  have hpd' : pairData (P ++ [e]) (e.u, e.v) = pairData P (e.u, e.v) ++ [e.data] :=
    pairData_append_self P e
  have hlen_eq : (pairKeys P (e.u, e.v)).length = (pairData P (e.u, e.v)).length :=
    pairKeys_length_eq_pairData_length P (e.u, e.v)
  have hmfu := (wf_marker_of_mem hWF he).1
  have hmfv := (wf_marker_of_mem hWF he).2
  have hpair_mf : ∀ p : PyVal × PyVal, pairEdges P p ≠ [] →
      markerFreeV p.1 ∧ markerFreeV p.2 := by
    intro p hp
    obtain ⟨x, hxP, hxp⟩ := pair_witness hp
    have := wf_marker_of_mem hWF (hPsub x hxP)
    rw [show x.u = p.1 from congrArg Prod.fst hxp,
        show x.v = p.2 from congrArg Prod.snd hxp] at this
    exact this
  have hpair_G : ∀ p : PyVal × PyVal, pairEdges P p ≠ [] → ∃ x ∈ G.edges, (x.u, x.v) = p := by
    intro p hp
    obtain ⟨x, hxP, hxp⟩ := pair_witness hp
    exact ⟨x, hPsub x hxP, hxp⟩
  have hpair_keys : ∀ (p : PyVal × PyVal) (i : Nat), i < (pairKeys P p).length →
      pairEdges P p ≠ [] := by
    intro p i h
    exact pairEdges_ne_of_keys_pos (Nat.lt_of_le_of_lt (Nat.zero_le i) h)
  -- the fresh synthetic node, with the count already rewritten to the prefix length
  have hN : splitNode e.u e.v (remGet st (e.u, e.v)).length =
      splitNode e.u e.v (pairKeys P (e.u, e.v)).length := by rw [hcount]
  -- key-distinctness facts
  have hdir_ne1 : ∀ p : PyVal × PyVal, pairEdges P p ≠ [] →
      p ≠ (e.u, splitNode e.u e.v (pairKeys P (e.u, e.v)).length) := by
    intro p hp hc
    exact markerFreeV_ne_splitNode (hpair_mf p hp).2 _ _ _ (congrArg Prod.snd hc)
  have hdir_ne2 : ∀ p : PyVal × PyVal, pairEdges P p ≠ [] →
      p ≠ (splitNode e.u e.v (pairKeys P (e.u, e.v)).length, e.v) := by
    intro p hp hc
    exact markerFreeV_ne_splitNode (hpair_mf p hp).1 _ _ _ (congrArg Prod.fst hc)
  have hs1_neK1 : ∀ (p : PyVal × PyVal) (i : Nat), i < (pairKeys P p).length →
      (p.1, splitNode p.1 p.2 i) ≠ (e.u, splitNode e.u e.v (pairKeys P (e.u, e.v)).length) := by
    intro p i hilt hc
    have hname : splitNode p.1 p.2 i =
        splitNode (e.u, e.v).1 (e.u, e.v).2 (pairKeys P (e.u, e.v)).length :=
      congrArg Prod.snd hc
    obtain ⟨hpq, hij⟩ := splitNode_pair_inj hWF (hpair_G p (hpair_keys p i hilt))
      ⟨e, he, rfl⟩ hname
    rw [hpq, hij] at hilt
    exact Nat.lt_irrefl _ hilt
  have hs2_neK2 : ∀ (p : PyVal × PyVal) (i : Nat), i < (pairKeys P p).length →
      (splitNode p.1 p.2 i, p.2) ≠ (splitNode e.u e.v (pairKeys P (e.u, e.v)).length, e.v) := by
    intro p i hilt hc
    have hname : splitNode p.1 p.2 i =
        splitNode (e.u, e.v).1 (e.u, e.v).2 (pairKeys P (e.u, e.v)).length :=
      congrArg Prod.fst hc
    obtain ⟨hpq, hij⟩ := splitNode_pair_inj hWF (hpair_G p (hpair_keys p i hilt))
      ⟨e, he, rfl⟩ hname
    rw [hpq, hij] at hilt
    exact Nat.lt_irrefl _ hilt
  have hs2_neK1 : ∀ (p : PyVal × PyVal) (i : Nat),
      (splitNode p.1 p.2 i, p.2) ≠ (e.u, splitNode e.u e.v (pairKeys P (e.u, e.v)).length) := by
    intro p i hc
    exact markerFreeV_ne_splitNode hmfu _ _ _ (congrArg Prod.fst hc).symm
  have hs1_neK2 : ∀ (p : PyVal × PyVal) (i : Nat), pairEdges P p ≠ [] →
      (p.1, splitNode p.1 p.2 i) ≠ (splitNode e.u e.v (pairKeys P (e.u, e.v)).length, e.v) := by
    intro p i hp hc
    exact markerFreeV_ne_splitNode (hpair_mf p hp).1 _ _ _ (congrArg Prod.fst hc)
  have hK12 : (e.u, splitNode e.u e.v (pairKeys P (e.u, e.v)).length) ≠
      (splitNode e.u e.v (pairKeys P (e.u, e.v)).length, e.v) := by
    intro hc
    exact markerFreeV_ne_splitNode hmfu _ _ _ (congrArg Prod.fst hc)
  have hmono : ∀ q, pairEdges P q ≠ [] → pairEdges (P ++ [e]) q ≠ [] := by
    intro q hq
    by_cases h : (e.u, e.v) = q
    · rw [← h, pairEdges_append_self]
      simp
    · rw [pairEdges_append_of_ne h]
      exact hq
  have hmap' : (processEdge st e).edge_mapping =
      alSet (alSet st.edge_mapping
          (e.u, splitNode e.u e.v (pairKeys P (e.u, e.v)).length) (e.u, e.v, e.key))
        (splitNode e.u e.v (pairKeys P (e.u, e.v)).length, e.v) (e.u, e.v, e.key) := by
    rw [processEdge_pos_map st e hpos, hN]
  have hedges' : (processEdge st e).split_graph.edges =
      alSet (alSet st.split_graph.edges
          (e.u, splitNode e.u e.v (pairKeys P (e.u, e.v)).length) e.data)
        (splitNode e.u e.v (pairKeys P (e.u, e.v)).length, e.v) (zeroFlow e.data) := by
    rw [processEdge_pos_edges st e hpos, hN]
  have hrem_self : remGet (processEdge st e) (e.u, e.v) =
      alSet (remGet st (e.u, e.v)) e.key
        (e.u, splitNode e.u e.v (pairKeys P (e.u, e.v)).length) := by
    rw [pos_remGet_self st e hpos, hN]
  refine ⟨?_, ?_, ?_, ?_, ?_, ?_, ?_, ?_, ?_, ?_, ?_, ?_, ?_, ?_⟩
  · -- rem_at
    intro p i k hk
    by_cases hp : p = (e.u, e.v)
    · subst hp
      rw [hks'] at hk
      by_cases hik : i < (pairKeys P (e.u, e.v)).length
      · rw [List.getElem?_append_left hik] at hk
        have hkmem : k ∈ pairKeys P (e.u, e.v) := List.getElem?_mem hk
        have hke : k ≠ e.key := by
          intro hc
          exact hfresh (hc ▸ hkmem)
        rw [remGet2_eq_alGet_remGet, hrem_self, alGet_alSet_ne _ _ _ _ hke,
            ← remGet2_eq_alGet_remGet]
        exact hMI.rem_at (e.u, e.v) i k hk
      · by_cases hik2 : i = (pairKeys P (e.u, e.v)).length
        · subst hik2
          rw [List.getElem?_concat_length] at hk
          have hkk : e.key = k := Option.some.inj hk
          rw [remGet2_eq_alGet_remGet, hrem_self, ← hkk, alGet_alSet_self]
          unfold canonEntry
          rw [if_neg (by omega)]
        · have : (pairKeys P (e.u, e.v) ++ [e.key])[i]? = none := by
            refine List.getElem?_eq_none ?_
            rw [List.length_append]
            simp only [List.length_cons, List.length_nil]
            omega
          rw [this] at hk
          cases hk
    · have hne : (e.u, e.v) ≠ p := fun hc => hp hc.symm
      rw [pairKeys_append_of_ne hne] at hk
      rw [remGet2_eq_alGet_remGet, pos_remGet_ne st e hpos hp, ← remGet2_eq_alGet_remGet]
      exact hMI.rem_at p i k hk
  · -- rem_none
    intro p k hnk
    by_cases hp : p = (e.u, e.v)
    · subst hp
      rw [hks'] at hnk
      have hke : k ≠ e.key := by
        intro hc
        exact hnk (by rw [hc]; exact List.mem_append_right _ (List.mem_cons_self _ _))
      have hks : k ∉ pairKeys P (e.u, e.v) := by
        intro hc
        exact hnk (List.mem_append_left _ hc)
      rw [remGet2_eq_alGet_remGet, hrem_self, alGet_alSet_ne _ _ _ _ hke,
          ← remGet2_eq_alGet_remGet]
      exact hMI.rem_none (e.u, e.v) k hks
    · have hne : (e.u, e.v) ≠ p := fun hc => hp hc.symm
      rw [pairKeys_append_of_ne hne] at hnk
      rw [remGet2_eq_alGet_remGet, pos_remGet_ne st e hpos hp, ← remGet2_eq_alGet_remGet]
      exact hMI.rem_none p k hnk
  · -- rem_len
    intro p
    by_cases hp : p = (e.u, e.v)
    · subst hp
      rw [hrem_self, hks']
      have hnone : alGet (remGet st (e.u, e.v)) e.key = none := by
        rw [← remGet2_eq_alGet_remGet]
        exact hMI.rem_none (e.u, e.v) e.key hfresh
      have hnm := (alGet_eq_none_iff _ _).mp hnone
      rw [alSet_length_of_not_mem _ hnm, hMI.rem_len (e.u, e.v), List.length_append]
      rfl
    · have hne : (e.u, e.v) ≠ p := fun hc => hp hc.symm
      rw [pos_remGet_ne st e hpos hp, pairKeys_append_of_ne hne]
      exact hMI.rem_len p
  · -- map_dir
    intro p k hk
    by_cases hp : p = (e.u, e.v)
    · subst hp
      rw [hks'] at hk
      rw [List.getElem?_append_left (Nat.lt_of_lt_of_le (Nat.zero_lt_one) hkn1)] at hk
      rw [hmap', alGet_alSet_ne _ _ _ _ (hdir_ne2 (e.u, e.v) hpe),
          alGet_alSet_ne _ _ _ _ (hdir_ne1 (e.u, e.v) hpe)]
      exact hMI.map_dir (e.u, e.v) k hk
    · have hne : (e.u, e.v) ≠ p := fun hc => hp hc.symm
      rw [pairKeys_append_of_ne hne] at hk
      have hpne : pairEdges P p ≠ [] := by
        refine pairEdges_ne_of_keys_pos ?_
        rcases List.getElem?_eq_some_iff.mp hk with ⟨hlt, _⟩
        omega
      rw [hmap', alGet_alSet_ne _ _ _ _ (hdir_ne2 p hpne),
          alGet_alSet_ne _ _ _ _ (hdir_ne1 p hpne)]
      exact hMI.map_dir p k hk
  · -- map_s1
    intro p i k h1 hk
    by_cases hp : p = (e.u, e.v)
    · subst hp
      rw [hks'] at hk
      by_cases hik : i < (pairKeys P (e.u, e.v)).length
      · rw [List.getElem?_append_left hik] at hk
        rw [hmap', alGet_alSet_ne _ _ _ _ (hs1_neK2 (e.u, e.v) i hpe),
            alGet_alSet_ne _ _ _ _ (hs1_neK1 (e.u, e.v) i hik)]
        exact hMI.map_s1 (e.u, e.v) i k h1 hk
      · by_cases hik2 : i = (pairKeys P (e.u, e.v)).length
        · subst hik2
          rw [List.getElem?_concat_length] at hk
          have hkk : e.key = k := Option.some.inj hk
          rw [hmap', alGet_alSet_ne _ _ _ _ hK12, alGet_alSet_self, ← hkk]
        · have : (pairKeys P (e.u, e.v) ++ [e.key])[i]? = none := by
            refine List.getElem?_eq_none ?_
            rw [List.length_append]
            simp only [List.length_cons, List.length_nil]
            omega
          rw [this] at hk
          cases hk
    · have hne : (e.u, e.v) ≠ p := fun hc => hp hc.symm
      rw [pairKeys_append_of_ne hne] at hk
      have hilt : i < (pairKeys P p).length := by
        rcases List.getElem?_eq_some_iff.mp hk with ⟨hlt, _⟩
        exact hlt
      rw [hmap', alGet_alSet_ne _ _ _ _ (hs1_neK2 p i (hpair_keys p i hilt)),
          alGet_alSet_ne _ _ _ _ (hs1_neK1 p i hilt)]
      exact hMI.map_s1 p i k h1 hk
  · -- map_s2
    intro p i k h1 hk
    by_cases hp : p = (e.u, e.v)
    · subst hp
      rw [hks'] at hk
      by_cases hik : i < (pairKeys P (e.u, e.v)).length
      · rw [List.getElem?_append_left hik] at hk
        rw [hmap', alGet_alSet_ne _ _ _ _ (hs2_neK2 (e.u, e.v) i hik),
            alGet_alSet_ne _ _ _ _ (hs2_neK1 (e.u, e.v) i)]
        exact hMI.map_s2 (e.u, e.v) i k h1 hk
      · by_cases hik2 : i = (pairKeys P (e.u, e.v)).length
        · subst hik2
          rw [List.getElem?_concat_length] at hk
          have hkk : e.key = k := Option.some.inj hk
          rw [hmap', alGet_alSet_self, ← hkk]
        · have : (pairKeys P (e.u, e.v) ++ [e.key])[i]? = none := by
            refine List.getElem?_eq_none ?_
            rw [List.length_append]
            simp only [List.length_cons, List.length_nil]
            omega
          rw [this] at hk
          cases hk
    · have hne : (e.u, e.v) ≠ p := fun hc => hp hc.symm
      rw [pairKeys_append_of_ne hne] at hk
      have hilt : i < (pairKeys P p).length := by
        rcases List.getElem?_eq_some_iff.mp hk with ⟨hlt, _⟩
        exact hlt
      rw [hmap', alGet_alSet_ne _ _ _ _ (hs2_neK2 p i hilt),
          alGet_alSet_ne _ _ _ _ (hs2_neK1 p i)]
      exact hMI.map_s2 p i k h1 hk
  · -- map_dom
    intro q hq
    rw [hmap'] at hq
    rcases (alGet_isSome_alSet _ _ _ _).mp hq with hq | hq
    · right
      rw [synthShape_iff]
      refine ⟨(e.u, e.v), (pairKeys P (e.u, e.v)).length, hkn1, ?_, Or.inr hq⟩
      rw [hks', List.length_append]
      simp
    · rcases (alGet_isSome_alSet _ _ _ _).mp hq with hq | hq
      · right
        rw [synthShape_iff]
        refine ⟨(e.u, e.v), (pairKeys P (e.u, e.v)).length, hkn1, ?_, Or.inl hq⟩
        rw [hks', List.length_append]
        simp
      · rcases hMI.map_dom q hq with hdir | hsyn
        · exact Or.inl (hmono q hdir)
        · exact Or.inr (synthShape_mono hsyn)
  · -- edge_dir
    intro p dd hd
    by_cases hp : p = (e.u, e.v)
    · subst hp
      rw [hpd'] at hd
      have h0 : 0 < (pairData P (e.u, e.v)).length := by omega
      rw [List.getElem?_append_left h0] at hd
      rw [hedges', alGet_alSet_ne _ _ _ _ (hdir_ne2 (e.u, e.v) hpe),
          alGet_alSet_ne _ _ _ _ (hdir_ne1 (e.u, e.v) hpe)]
      exact hMI.edge_dir (e.u, e.v) dd hd
    · have hne : (e.u, e.v) ≠ p := fun hc => hp hc.symm
      rw [pairData_append_of_ne hne] at hd
      have hpne : pairEdges P p ≠ [] := by
        intro hc
        rw [show pairData P p = [] from by unfold pairData; rw [hc]; rfl] at hd
        cases hd
      rw [hedges', alGet_alSet_ne _ _ _ _ (hdir_ne2 p hpne),
          alGet_alSet_ne _ _ _ _ (hdir_ne1 p hpne)]
      exact hMI.edge_dir p dd hd
  · -- edge_s1
    intro p i dd h1 hd
    by_cases hp : p = (e.u, e.v)
    · subst hp
      rw [hpd'] at hd
      by_cases hik : i < (pairData P (e.u, e.v)).length
      · rw [List.getElem?_append_left hik] at hd
        rw [hedges', alGet_alSet_ne _ _ _ _ (hs1_neK2 (e.u, e.v) i hpe),
            alGet_alSet_ne _ _ _ _ (hs1_neK1 (e.u, e.v) i (by omega))]
        exact hMI.edge_s1 (e.u, e.v) i dd h1 hd
      · by_cases hik2 : i = (pairData P (e.u, e.v)).length
        · subst hik2
          rw [List.getElem?_concat_length] at hd
          have hdd : e.data = dd := Option.some.inj hd
          rw [hedges']
          rw [show (pairData P (e.u, e.v)).length = (pairKeys P (e.u, e.v)).length from
            hlen_eq.symm]
          rw [alGet_alSet_ne _ _ _ _ hK12, alGet_alSet_self, ← hdd]
        · have : (pairData P (e.u, e.v) ++ [e.data])[i]? = none := by
            refine List.getElem?_eq_none ?_
            rw [List.length_append]
            simp only [List.length_cons, List.length_nil]
            omega
          rw [this] at hd
          cases hd
    · have hne : (e.u, e.v) ≠ p := fun hc => hp hc.symm
      rw [pairData_append_of_ne hne] at hd
      have hilt : i < (pairData P p).length := by
        rcases List.getElem?_eq_some_iff.mp hd with ⟨hlt, _⟩
        exact hlt
      have hiltk : i < (pairKeys P p).length := by
        rw [pairKeys_length_eq_pairData_length]
        exact hilt
      rw [hedges', alGet_alSet_ne _ _ _ _ (hs1_neK2 p i (hpair_keys p i hiltk)),
          alGet_alSet_ne _ _ _ _ (hs1_neK1 p i hiltk)]
      exact hMI.edge_s1 p i dd h1 hd
  · -- edge_s2
    intro p i dd h1 hd
    by_cases hp : p = (e.u, e.v)
    · subst hp
      rw [hpd'] at hd
      by_cases hik : i < (pairData P (e.u, e.v)).length
      · rw [List.getElem?_append_left hik] at hd
        rw [hedges', alGet_alSet_ne _ _ _ _ (hs2_neK2 (e.u, e.v) i (by omega)),
            alGet_alSet_ne _ _ _ _ (hs2_neK1 (e.u, e.v) i)]
        exact hMI.edge_s2 (e.u, e.v) i dd h1 hd
      · by_cases hik2 : i = (pairData P (e.u, e.v)).length
        · subst hik2
          rw [List.getElem?_concat_length] at hd
          have hdd : e.data = dd := Option.some.inj hd
          rw [hedges']
          rw [show (pairData P (e.u, e.v)).length = (pairKeys P (e.u, e.v)).length from
            hlen_eq.symm]
          rw [alGet_alSet_self, ← hdd]
        · have : (pairData P (e.u, e.v) ++ [e.data])[i]? = none := by
            refine List.getElem?_eq_none ?_
            rw [List.length_append]
            simp only [List.length_cons, List.length_nil]
            omega
          rw [this] at hd
          cases hd
    · have hne : (e.u, e.v) ≠ p := fun hc => hp hc.symm
      rw [pairData_append_of_ne hne] at hd
      have hilt : i < (pairData P p).length := by
        rcases List.getElem?_eq_some_iff.mp hd with ⟨hlt, _⟩
        exact hlt
      have hiltk : i < (pairKeys P p).length := by
        rw [pairKeys_length_eq_pairData_length]
        exact hilt
      rw [hedges', alGet_alSet_ne _ _ _ _ (hs2_neK2 p i hiltk),
          alGet_alSet_ne _ _ _ _ (hs2_neK1 p i)]
      exact hMI.edge_s2 p i dd h1 hd
  · -- edge_dom
    intro q hq
    rw [hedges'] at hq
    rcases (alGet_isSome_alSet _ _ _ _).mp hq with hq | hq
    · right
      rw [synthShape_iff]
      refine ⟨(e.u, e.v), (pairKeys P (e.u, e.v)).length, hkn1, ?_, Or.inr hq⟩
      rw [hks', List.length_append]
      simp
    · rcases (alGet_isSome_alSet _ _ _ _).mp hq with hq | hq
      · right
        rw [synthShape_iff]
        refine ⟨(e.u, e.v), (pairKeys P (e.u, e.v)).length, hkn1, ?_, Or.inl hq⟩
        rw [hks', List.length_append]
        simp
      · rcases hMI.edge_dom q hq with hdir | hsyn
        · exact Or.inl (hmono q hdir)
        · exact Or.inr (synthShape_mono hsyn)
  · -- edge_keys_nodup
    rw [hedges']
    exact alSet_keys_nodup (alSet_keys_nodup hMI.edge_keys_nodup)
  · -- nodes_iff
    intro n
    have hrhs : (∃ p i, 1 ≤ i ∧ i < (pairKeys (P ++ [e]) p).length ∧ n = splitNode p.1 p.2 i) ↔
        ((∃ p i, 1 ≤ i ∧ i < (pairKeys P p).length ∧ n = splitNode p.1 p.2 i) ∨
          n = splitNode e.u e.v (pairKeys P (e.u, e.v)).length) := by
      constructor
      · rintro ⟨p, i, h1, h2, h3⟩
        by_cases hp : (e.u, e.v) = p
        · rw [← hp, hks', List.length_append] at h2
          simp only [List.length_cons, List.length_nil] at h2
          by_cases hik : i < (pairKeys P (e.u, e.v)).length
          · exact Or.inl ⟨p, i, h1, by rw [← hp]; exact hik, h3⟩
          · have : i = (pairKeys P (e.u, e.v)).length := by omega
            rw [← hp] at h3
            rw [this] at h3
            exact Or.inr h3
        · rw [pairKeys_append_of_ne hp] at h2
          exact Or.inl ⟨p, i, h1, h2, h3⟩
      · rintro (⟨p, i, h1, h2, h3⟩ | h)
        · refine ⟨p, i, h1, ?_, h3⟩
          by_cases hp : (e.u, e.v) = p
          · rw [← hp] at h2 ⊢
            rw [hks', List.length_append]
            omega
          · rw [pairKeys_append_of_ne hp]
            exact h2
        · refine ⟨(e.u, e.v), (pairKeys P (e.u, e.v)).length, hkn1, ?_, h⟩
          rw [hks', List.length_append]
          simp
    rw [processEdge_pos_nodes_mem st e hpos n, hN, hMI.nodes_iff n, hrhs]
    constructor
    · rintro (h | h | h | h | h)
      · exact Or.inr (Or.inr h)
      · exact Or.inl (h ▸ (hWF.ends_mem e he).1)
      · exact Or.inl (h ▸ (hWF.ends_mem e he).2)
      · exact Or.inl h
      · exact Or.inr (Or.inl h)
    · rintro (h | h | h)
      · exact Or.inr (Or.inr (Or.inr (Or.inl h)))
      · exact Or.inr (Or.inr (Or.inr (Or.inr h)))
      · exact Or.inl h
  · -- nodes_nodup
    rw [processEdge_pos st e hpos]
    show (addEdge (addEdge (addNode st.split_graph
        (splitNode e.u e.v (remGet st (e.u, e.v)).length)) e.u
        (splitNode e.u e.v (remGet st (e.u, e.v)).length) e.data)
        (splitNode e.u e.v (remGet st (e.u, e.v)).length) e.v (zeroFlow e.data)).nodes.Nodup
    exact addEdge_nodes_nodup (addEdge_nodes_nodup
      (addNode_nodes_nodup hMI.nodes_nodup _) _ _ _) _ _ _

/-- A key in `pairKeys` comes from an edge of the list with that pair. -/
theorem mem_pairKeys {P : List MEdge} {p : PyVal × PyVal} {k : PyVal}
    (h : k ∈ pairKeys P p) : ∃ x ∈ P, (x.u, x.v) = p ∧ x.key = k := by
  unfold pairKeys at h
  obtain ⟨x, hx, hk⟩ := List.mem_map.mp h
  obtain ⟨h1, h2⟩ := mem_pairEdges.mp hx
  exact ⟨x, h1, h2, hk⟩

/-- The invariant is maintained across any suffix of the edge fold. -/
theorem MI_fold {G : MultiDiGraph} (hWF : WF G) :
    ∀ (rest P : List MEdge), G.edges = P ++ rest →
    ∀ st, MI G.nodes P st → MI G.nodes (P ++ rest) (rest.foldl processEdge st) := by
  intro rest
  induction rest with
  | nil =>
    intro P _ st hMI
    simpa using hMI
  | cons e rs ih =>
    intro P hG st hMI
    have he : e ∈ G.edges := by
      rw [hG]
      exact List.mem_append_right _ (List.mem_cons_self _ _)
    have hPsub : ∀ x ∈ P, x ∈ G.edges := by
      intro x hx
      rw [hG]
      exact List.mem_append_left _ hx
    have hG' : G.edges = (P ++ [e]) ++ rs := by
      rw [hG, List.append_assoc, List.singleton_append]
    have hstep : MI G.nodes (P ++ [e]) (processEdge st e) := by
      by_cases hpe : pairEdges P (e.u, e.v) = []
      · exact MI_step_neg hWF he hMI hpe
      · have hfresh : e.key ∉ pairKeys P (e.u, e.v) := by
          intro hk
          obtain ⟨x, hxP, hxp, hxk⟩ := mem_pairKeys hk
          have hu : x.u = e.u := congrArg Prod.fst hxp
          have hv : x.v = e.v := congrArg Prod.snd hxp
          have htx : triple x = triple e := by
            unfold triple
            rw [hu, hv, hxk]
          have hnd := hWF.triples_nodup
          rw [hG, List.map_append] at hnd
          have hdisj := (List.nodup_append.mp hnd).2.2
          refine hdisj (List.mem_map_of_mem _ hxP) ?_
          rw [htx]
          exact List.mem_map_of_mem _ (List.mem_cons_self _ _)
        exact MI_step_pos hWF hPsub he hfresh hMI hpe
    have hres := ih (P ++ [e]) hG' (processEdge st e) hstep
    rw [List.append_assoc, List.singleton_append] at hres
    exact hres

/-- The master invariant holds of the fully built decomposer. -/
theorem MI_final {G : MultiDiGraph} (hWF : WF G) :
    MI G.nodes G.edges (createSplitGraph G) := by
  have h := MI_fold hWF G.edges [] (by rw [List.nil_append]) _ (MI_base G hWF)
  rw [List.nil_append] at h
  exact h

/-- C2 (amended): over a well-formed input (distinct nodes, endpoints
present, distinct `(u,v,key)` triples, marker-free identifiers, injective
`u_v` renderings), for every original edge `e = (u, v, key)`, every split
edge returned by `originalToSplit(e)` is mapped back by `edgeToOriginal` to
exactly `e`. -/
theorem C2_theorem {G : MultiDiGraph} (hWF : WF G) :
    ∀ e ∈ G.edges,
      ∀ q ∈ convert_original_to_split (createSplitGraph G) (e.u, e.v, e.key),
        convert_edge_to_original (createSplitGraph G) q = some (e.u, e.v, e.key) := by
  intro e he q hq
  have hMI := MI_final hWF
  have hkmem : e.key ∈ pairKeys G.edges (e.u, e.v) := by
    unfold pairKeys
    exact List.mem_map_of_mem _ (mem_pairEdges.mpr ⟨he, rfl⟩)
  obtain ⟨i, hi⟩ := List.getElem?_of_mem hkmem
  have hrem := hMI.rem_at (e.u, e.v) i e.key hi
  by_cases h0 : i = 0
  · subst h0
    have hent : canonEntry (e.u, e.v) 0 = (e.u, e.v) := by
      unfold canonEntry
      rw [if_pos rfl]
    rw [hent] at hrem
    have hmap := hMI.map_dir (e.u, e.v) e.key hi
    have hmfv := (wf_marker_of_mem hWF he).2
    cases hvv : e.v with
    | str s =>
      have hms : strContainsSplit s = false := by
        rw [hvv] at hmfv
        exact hmfv
      simp only [convert_original_to_split_eq, hrem] at hq
      rw [hvv] at hq
      simp only [hms, Bool.false_eq_true, if_false, List.mem_singleton] at hq
      subst hq
      rw [hvv] at hmap
      exact hmap
    | int m =>
      simp only [convert_original_to_split_eq, hrem] at hq
      rw [hvv] at hq
      simp only [List.mem_singleton] at hq
      subst hq
      rw [hvv] at hmap
      exact hmap
  · have h1 : 1 ≤ i := Nat.one_le_iff_ne_zero.mpr h0
    have hent : canonEntry (e.u, e.v) i = (e.u, splitNode e.u e.v i) := by
      unfold canonEntry
      rw [if_neg h0]
    rw [hent] at hrem
    simp only [convert_original_to_split_eq, hrem, splitNode,
      strContainsSplit_splitNodeName, if_true] at hq
    rcases List.mem_cons.mp hq with hq | hq
    · subst hq
      exact hMI.map_s1 (e.u, e.v) i e.key h1 hi
    · rw [List.mem_singleton] at hq
      subst hq
      exact hMI.map_s2 (e.u, e.v) i e.key h1 hi

/-- C2 witness: on the scenario graph, both split edges of the second
parallel edge `(A, B, k1)` map back to `(A, B, k1)`. -/
theorem C2_witness :
    convert_edge_to_original dscn (vA, sAB1) = some (vA, vB, k1) ∧
    convert_edge_to_original dscn (sAB1, vB) = some (vA, vB, k1) :=
  ⟨C2_theorem ⟨by decide, by decide, by decide, by decide, by decide⟩
      { u := vA, v := vB, key := k1, data := dat3 } (by decide)
      (vA, sAB1) (by decide),
    C2_theorem ⟨by decide, by decide, by decide, by decide, by decide⟩
      { u := vA, v := vB, key := k1, data := dat3 } (by decide)
      (sAB1, vB) (by decide)⟩

/-- Well-formedness restricts to any prefix of the edge list. -/
theorem WF_prefix {G : MultiDiGraph} (hWF : WF G) {P rest : List MEdge}
    (hG : G.edges = P ++ rest) : WF { G with edges := P } := by
  have hsub : ∀ x ∈ P, x ∈ G.edges := by
    intro x hx
    rw [hG]
    exact List.mem_append_left _ hx
  refine ⟨hWF.nodes_nodup, ?_, ?_, hWF.marker_free, ?_⟩
  · intro e he
    exact hWF.ends_mem e (hsub e he)
  · have h := hWF.triples_nodup
    rw [hG, List.map_append] at h
    exact (List.nodup_append.mp h).1
  · intro e he e' he' h
    exact hWF.prefix_inj e (hsub e he) e' (hsub e' he') h

/-- C3 (amended): over a well-formed input, at the moment a second-or-later
parallel edge `e` for the pair `(u, v)` is processed (state after the prefix
`P` of the edge list), the node the builder creates is named
deterministically from `(u, v, count)` with `count` equal to the number of
reverse-mapping entries already recorded for `(u, v)` — which is at least 1,
since the first-edge branch already records one — and that name is fresh:
it is not yet a node of the split graph, it becomes one, and it is the only
node the step adds. -/
theorem C3_theorem {G : MultiDiGraph} (hWF : WF G) (P rest : List MEdge) (e : MEdge)
    (hG : G.edges = P ++ e :: rest) (hpe : pairEdges P (e.u, e.v) ≠ [])
    (st : Decomp) (hst : st = createSplitGraph { G with edges := P }) :
    (remGet st (e.u, e.v)).length = (pairKeys P (e.u, e.v)).length ∧
    1 ≤ (pairKeys P (e.u, e.v)).length ∧
    splitNode e.u e.v ((remGet st (e.u, e.v)).length) ∉ st.split_graph.nodes ∧
    splitNode e.u e.v ((remGet st (e.u, e.v)).length) ∈
      (processEdge st e).split_graph.nodes ∧
    (∀ n, n ∈ (processEdge st e).split_graph.nodes ↔
      (n = splitNode e.u e.v ((remGet st (e.u, e.v)).length) ∨
        n ∈ st.split_graph.nodes)) := by
  subst hst
  have hWFP := WF_prefix hWF hG
  have hMI : MI G.nodes P (createSplitGraph { G with edges := P }) := MI_final hWFP
  have heG : e ∈ G.edges := by
    rw [hG]
    exact List.mem_append_right _ (List.mem_cons_self _ _)
  have hPsub : ∀ x ∈ P, x ∈ G.edges := by
    intro x hx
    rw [hG]
    exact List.mem_append_left _ hx
  have hcount : (remGet (createSplitGraph { G with edges := P }) (e.u, e.v)).length =
      (pairKeys P (e.u, e.v)).length := hMI.rem_len (e.u, e.v)
  have hkn1 : 1 ≤ (pairKeys P (e.u, e.v)).length := by
    unfold pairKeys
    cases hc : pairEdges P (e.u, e.v) with
    | nil => exact absurd hc hpe
    | cons x r => simp
  have hpos : hasEdge (createSplitGraph { G with edges := P }).split_graph e.u e.v = true := by
    rw [hasEdge_iff_pair hWF hMI heG]
    exact hpe
  have hfresh : splitNode e.u e.v
      ((remGet (createSplitGraph { G with edges := P }) (e.u, e.v)).length) ∉
      (createSplitGraph { G with edges := P }).split_graph.nodes := by
    rw [hcount]
    intro hc
    rcases (hMI.nodes_iff _).mp hc with hc | ⟨p, i, h1, h2, h3⟩
    · exact markerFreeV_ne_splitNode (hWF.marker_free _ hc) e.u e.v _ rfl
    · have hpG : ∃ x ∈ G.edges, (x.u, x.v) = p := by
        obtain ⟨x, hxP, hxp⟩ := pair_witness (pairEdges_ne_of_keys_pos
          (Nat.lt_of_le_of_lt (Nat.zero_le i) h2))
        exact ⟨x, hPsub x hxP, hxp⟩
      obtain ⟨hpq, hij⟩ := splitNode_pair_inj hWF hpG ⟨e, heG, rfl⟩ h3.symm
      rw [hpq] at h2
      rw [hij] at h2
      exact Nat.lt_irrefl _ h2
  refine ⟨hcount, hkn1, hfresh, ?_, ?_⟩
  · rw [processEdge_pos_nodes_mem _ e hpos]
    exact Or.inl rfl
  · intro n
    rw [processEdge_pos_nodes_mem _ e hpos]
    have hu : e.u ∈ (createSplitGraph { G with edges := P }).split_graph.nodes :=
      (hMI.nodes_iff e.u).mpr (Or.inl (hWF.ends_mem e heG).1)
    have hv : e.v ∈ (createSplitGraph { G with edges := P }).split_graph.nodes :=
      (hMI.nodes_iff e.v).mpr (Or.inl (hWF.ends_mem e heG).2)
    constructor
    · rintro (h | h | h | h)
      · exact Or.inl h
      · exact Or.inr (h ▸ hu)
      · exact Or.inr (h ▸ hv)
      · exact Or.inr h
    · rintro (h | h)
      · exact Or.inl h
      · exact Or.inr (Or.inr (Or.inr h))

/-- C3 witness: on the scenario graph, the second parallel `(A, B)` edge is
processed with count 1 and creates the fresh node `A_B_split_1`. -/
theorem C3_witness :
    (remGet (createSplitGraph { Gscn with
        edges := [{ u := vA, v := vB, key := k0, data := dat5 }] }) (vA, vB)).length = 1 ∧
    splitNode vA vB 1 ∉ (createSplitGraph { Gscn with
        edges := [{ u := vA, v := vB, key := k0, data := dat5 }] }).split_graph.nodes := by
  have h := C3_theorem (G := Gscn) ⟨by decide, by decide, by decide, by decide, by decide⟩
    [{ u := vA, v := vB, key := k0, data := dat5 }]
    [{ u := vB, v := vC, key := k0, data := dat5 }]
    { u := vA, v := vB, key := k1, data := dat3 }
    rfl (by decide) _ rfl
  refine ⟨by decide, ?_⟩
  have h3 := h.2.2.1
  rw [show (remGet (createSplitGraph { Gscn with
      edges := [{ u := vA, v := vB, key := k0, data := dat5 }] }) (vA, vB)).length = 1
    from by decide] at h3
  exact h3

/-- C3 counterexample: without an injectivity assumption on the `u_v`
renderings, the freshness claim fails: at the moment the fourth edge of
`Gcross` (the second parallel edge of the pair `(a_b, c)`) is processed, the
count is 1 but the node name it determines, `a_b_c_split_1`, is already a
node of the split graph (created earlier for the distinct pair
`(a, b_c)`). -/
theorem C3_counterexample :
    (remGet dcross3 (vab, vc)).length = 1 ∧
    splitNode vab vc ((remGet dcross3 (vab, vc)).length) ∈ dcross3.split_graph.nodes := by
  decide

/-- A successful lookup yields a member of the association list. -/
theorem alGet_some_mem {α β : Type} [DecidableEq α] :
    ∀ {l : List (α × β)} {a : α} {b : β}, alGet l a = some b → (a, b) ∈ l := by
  intro l
  induction l with
  | nil => intro a b h; cases h
  | cons kv rest ih =>
    intro a b h
    rw [show alGet (kv :: rest) a = if kv.1 = a then some kv.2 else alGet rest a from rfl] at h
    by_cases hk : kv.1 = a
    · rw [if_pos hk] at h
      have hb : kv.2 = b := Option.some.inj h
      have hkv : kv = (a, b) := by
        rw [Prod.ext_iff]
        exact ⟨hk, hb⟩
      rw [← hkv]
      exact List.mem_cons_self _ _
    · rw [if_neg hk] at h
      exact List.mem_cons_of_mem _ (ih h)

/-- With distinct keys, membership determines the lookup. -/
theorem alGet_of_mem_nodup {α β : Type} [DecidableEq α] :
    ∀ {l : List (α × β)}, (l.map Prod.fst).Nodup → ∀ {a : α} {b : β},
      (a, b) ∈ l → alGet l a = some b := by
  intro l
  induction l with
  | nil => intro _ a b h; cases h
  | cons kv rest ih =>
    intro hnd a b h
    rw [List.map_cons, List.nodup_cons] at hnd
    rcases List.mem_cons.mp h with h | h
    · rw [show alGet (kv :: rest) a = if kv.1 = a then some kv.2 else alGet rest a from rfl]
      rw [if_pos (congrArg Prod.fst h.symm)]
      exact congrArg some (congrArg Prod.snd h.symm)
    · rw [show alGet (kv :: rest) a = if kv.1 = a then some kv.2 else alGet rest a from rfl]
      have hk : kv.1 ≠ a := by
        intro hc
        exact hnd.1 (hc ▸ List.mem_map_of_mem Prod.fst h)
      rw [if_neg hk]
      exact ih hnd.2 h

/-- In a duplicate-free list, a predicate with a unique satisfier keeps
exactly one element. -/
theorem filter_length_eq_one {α : Type} {l : List α} {f : α → Bool} {a : α}
    (hnd : l.Nodup) (ha : a ∈ l) (hfa : f a = true)
    (huniq : ∀ x ∈ l, f x = true → x = a) :
    (l.filter f).length = 1 := by
  induction l with
  | nil => cases ha
  | cons b t ih =>
    rw [List.nodup_cons] at hnd
    rcases List.mem_cons.mp ha with hb | hb
    · subst hb
      rw [List.filter_cons_of_pos hfa]
      have ht : t.filter f = [] := by
        rw [List.filter_eq_nil_iff]
        intro x hx hfx
        exact hnd.1 ((huniq x (List.mem_cons_of_mem _ hx) hfx) ▸ hx)
      rw [ht]
      rfl
    · have hfb : ¬ f b = true := by
        intro hc
        exact hnd.1 ((huniq b (List.mem_cons_self _ _) hc) ▸ hb)
      rw [List.filter_cons_of_neg hfb]
      exact ih hnd.2 hb (fun x hx hfx => huniq x (List.mem_cons_of_mem _ hx) hfx)

/-- C9 (amended): over a well-formed input, for every pair `p = (u, v)` with
`k ≥ 1` parallel edges, the split graph contains exactly the `k - 1`
synthetic nodes with ordinals `1 .. k-1` for that pair — pairwise distinct
deterministic names, none an original node, no other ordinal present — and
each has in-degree 1 and out-degree 1, with the edge terminating at the real
target `v` carrying flow 0 regardless of the originating edge's flow. -/
theorem C9_theorem {G : MultiDiGraph} (hWF : WF G) (p : PyVal × PyVal)
    (hpe : pairEdges G.edges p ≠ []) :
    (synthList G p).Nodup ∧
    (synthList G p).length = (pairKeys G.edges p).length - 1 ∧
    (∀ n ∈ synthList G p,
      n ∈ (createSplitGraph G).split_graph.nodes ∧
      n ∉ G.nodes ∧
      inDeg (createSplitGraph G).split_graph n = 1 ∧
      outDeg (createSplitGraph G).split_graph n = 1 ∧
      ∃ dd, alGet (createSplitGraph G).split_graph.edges (n, p.2) = some dd ∧
        dd.flow = 0) ∧
    (∀ c, splitNode p.1 p.2 c ∈ (createSplitGraph G).split_graph.nodes →
      splitNode p.1 p.2 c ∈ synthList G p) := by
  have hMI := MI_final hWF
  have hpG : ∃ x ∈ G.edges, (x.u, x.v) = p := pair_witness hpe
  have hwit : ∀ (q : PyVal × PyVal) (i : Nat), i < (pairKeys G.edges q).length →
      (∃ x ∈ G.edges, (x.u, x.v) = q) ∧ markerFreeV q.1 ∧ markerFreeV q.2 := by
    intro q i hi
    have hq : pairEdges G.edges q ≠ [] :=
      pairEdges_ne_of_keys_pos (Nat.lt_of_le_of_lt (Nat.zero_le i) hi)
    obtain ⟨x, hx, hxq⟩ := pair_witness hq
    refine ⟨⟨x, hx, hxq⟩, ?_⟩
    have h := wf_marker_of_mem hWF hx
    rw [show x.u = q.1 from congrArg Prod.fst hxq,
        show x.v = q.2 from congrArg Prod.snd hxq] at h
    exact h
  have hednd : (createSplitGraph G).split_graph.edges.Nodup :=
    List.Nodup.of_map Prod.fst hMI.edge_keys_nodup
  have hclass : ∀ kv ∈ (createSplitGraph G).split_graph.edges,
      pairEdges G.edges kv.1 ≠ [] ∨ synthShape G.edges kv.1 := by
    intro kv hkv
    refine hMI.edge_dom kv.1 ?_
    rw [alGet_isSome_iff]
    exact List.mem_map_of_mem _ hkv
  refine ⟨?_, ?_, ?_, ?_⟩
  · unfold synthList
    refine List.Nodup.map_on ?_ (List.nodup_range _)
    intro j1 hj1 j2 hj2 heq
    have hname : splitNodeName p.1 p.2 (j1 + 1) = splitNodeName p.1 p.2 (j2 + 1) := by
      injection heq
    have := (splitNodeName_inj hname).2
    omega
  · unfold synthList
    rw [List.length_map, List.length_range]
  · intro n hn
    unfold synthList at hn
    obtain ⟨j, hjr, hjn⟩ := List.mem_map.mp hn
    have hj : j < (pairKeys G.edges p).length - 1 := List.mem_range.mp hjr
    have hk1 : 1 ≤ (pairKeys G.edges p).length := by
      unfold pairKeys
      cases hc : pairEdges G.edges p with
      | nil => exact absurd hc hpe
      | cons x r => simp
    have hjlt : j + 1 < (pairKeys G.edges p).length := by omega
    subst hjn
    have hdd : ∃ dd, (pairData G.edges p)[j + 1]? = some dd := by
      have hlt : j + 1 < (pairData G.edges p).length := by
        rw [← pairKeys_length_eq_pairData_length]
        exact hjlt
      exact ⟨_, List.getElem?_eq_getElem hlt⟩
    obtain ⟨dd, hdd⟩ := hdd
    have hs1 := hMI.edge_s1 p (j + 1) dd (by omega) hdd
    have hs2 := hMI.edge_s2 p (j + 1) dd (by omega) hdd
    have hmem1 : ((p.1, splitNode p.1 p.2 (j + 1)), dd) ∈
        (createSplitGraph G).split_graph.edges := alGet_some_mem hs1
    have hmem2 : ((splitNode p.1 p.2 (j + 1), p.2), zeroFlow dd) ∈
        (createSplitGraph G).split_graph.edges := alGet_some_mem hs2
    refine ⟨?_, ?_, ?_, ?_, ⟨zeroFlow dd, hs2, rfl⟩⟩
    · exact (hMI.nodes_iff _).mpr (Or.inr ⟨p, j + 1, by omega, hjlt, rfl⟩)
    · intro hc
      exact markerFreeV_ne_splitNode (hWF.marker_free _ hc) p.1 p.2 (j + 1) rfl
    · unfold inDeg
      refine filter_length_eq_one hednd hmem1 (by simp) ?_
      intro kv hkv hfkv
      have htgt : kv.1.2 = splitNode p.1 p.2 (j + 1) := of_decide_eq_true hfkv
      rcases hclass kv hkv with hdir | ⟨q, i2, hi1, hi2, hqe | hqe⟩
      · obtain ⟨x, hx, hxq⟩ := pair_witness hdir
        have hxv : x.v = splitNode p.1 p.2 (j + 1) := by
          rw [show x.v = kv.1.2 from congrArg Prod.snd hxq]
          exact htgt
        exact absurd hxv
          (markerFreeV_ne_splitNode (wf_marker_of_mem hWF hx).2 p.1 p.2 (j + 1))
      · have hname : splitNode q.1 q.2 i2 = splitNode p.1 p.2 (j + 1) := by
          rw [hqe] at htgt
          exact htgt
        obtain ⟨hqp, hi⟩ := splitNode_pair_inj hWF (hwit q i2 hi2).1 hpG hname
        have hk1' : kv.1 = (p.1, splitNode p.1 p.2 (j + 1)) := by
          rw [hqe, hqp, hi]
        have hget : alGet (createSplitGraph G).split_graph.edges kv.1 = some kv.2 :=
          alGet_of_mem_nodup hMI.edge_keys_nodup hkv
        rw [hk1', hs1] at hget
        have hv2 : kv.2 = dd := (Option.some.inj hget).symm
        rw [Prod.ext_iff]
        exact ⟨hk1', hv2⟩
      · have hq2 : q.2 = splitNode p.1 p.2 (j + 1) := by
          rw [hqe] at htgt
          exact htgt
        exact absurd hq2
          (markerFreeV_ne_splitNode (hwit q i2 hi2).2.2 p.1 p.2 (j + 1))
    · unfold outDeg
      refine filter_length_eq_one hednd hmem2 (by simp) ?_
      intro kv hkv hfkv
      have hsrc : kv.1.1 = splitNode p.1 p.2 (j + 1) := of_decide_eq_true hfkv
      rcases hclass kv hkv with hdir | ⟨q, i2, hi1, hi2, hqe | hqe⟩
      · obtain ⟨x, hx, hxq⟩ := pair_witness hdir
        have hxu : x.u = splitNode p.1 p.2 (j + 1) := by
          rw [show x.u = kv.1.1 from congrArg Prod.fst hxq]
          exact hsrc
        exact absurd hxu
          (markerFreeV_ne_splitNode (wf_marker_of_mem hWF hx).1 p.1 p.2 (j + 1))
      · have hq1 : q.1 = splitNode p.1 p.2 (j + 1) := by
          rw [hqe] at hsrc
          exact hsrc
        exact absurd hq1
          (markerFreeV_ne_splitNode (hwit q i2 hi2).2.1 p.1 p.2 (j + 1))
      · have hname : splitNode q.1 q.2 i2 = splitNode p.1 p.2 (j + 1) := by
          rw [hqe] at hsrc
          exact hsrc
        obtain ⟨hqp, hi⟩ := splitNode_pair_inj hWF (hwit q i2 hi2).1 hpG hname
        have hk1' : kv.1 = (splitNode p.1 p.2 (j + 1), p.2) := by
          rw [hqe, hqp, hi]
        have hget : alGet (createSplitGraph G).split_graph.edges kv.1 = some kv.2 :=
          alGet_of_mem_nodup hMI.edge_keys_nodup hkv
        rw [hk1', hs2] at hget
        have hv2 : kv.2 = zeroFlow dd := (Option.some.inj hget).symm
        rw [Prod.ext_iff]
        exact ⟨hk1', hv2⟩
  · intro c hc
    rcases (hMI.nodes_iff _).mp hc with hc | ⟨q, i, h1, h2, h3⟩
    · exact absurd rfl (markerFreeV_ne_splitNode (hWF.marker_free _ hc) p.1 p.2 c)
    · obtain ⟨hqp, hic⟩ := splitNode_pair_inj hWF hpG (hwit q i h2).1 h3
      rw [← hqp] at h2
      unfold synthList
      refine List.mem_map.mpr ⟨c - 1, List.mem_range.mpr (by omega), ?_⟩
      have hc1 : c - 1 + 1 = c := by omega
      rw [hc1]

/-- C9 witness: on the scenario graph, the pair `(A, B)` has two parallel
edges and one synthetic node `A_B_split_1`, of in- and out-degree 1, whose
terminal edge carries flow 0. -/
theorem C9_witness :
    inDeg dscn.split_graph sAB1 = 1 ∧ outDeg dscn.split_graph sAB1 = 1 ∧
    ∃ dd, alGet dscn.split_graph.edges (sAB1, vB) = some dd ∧ dd.flow = 0 := by
  have h := C9_theorem (G := Gscn) ⟨by decide, by decide, by decide, by decide, by decide⟩
    (vA, vB) (by decide)
  have h3 := h.2.2.1 sAB1 (by decide)
  exact ⟨h3.2.2.1, h3.2.2.2.1, h3.2.2.2.2⟩

/-- C9 counterexample: on `Gcross` each of the pairs `(a, b_c)` and
`(a_b, c)` has exactly two parallel edges, but the single shared synthetic
node `a_b_c_split_1` has in-degree 2 and out-degree 2, so the claimed
per-pair degree-1 synthetic nodes with unique names do not exist. -/
theorem C9_counterexample :
    (pairKeys Gcross.edges (va, vbc)).length = 2 ∧
    (pairKeys Gcross.edges (vab, vc)).length = 2 ∧
    remGet2 dcross (va, vbc) k1 = some (va, PyVal.str "a_b_c_split_1") ∧
    remGet2 dcross (vab, vc) k1 = some (vab, PyVal.str "a_b_c_split_1") ∧
    inDeg dcross.split_graph (PyVal.str "a_b_c_split_1") = 2 ∧
    outDeg dcross.split_graph (PyVal.str "a_b_c_split_1") = 2 := by
  decide

/-- Both components of a consecutive pair are nodes of the path. -/
theorem pathPairs_mem : ∀ (path : List PyVal), ∀ q ∈ pathPairs path,
    q.1 ∈ path ∧ q.2 ∈ path := by
  intro path
  induction path with
  | nil => intro q h; cases h
  | cons a rest ih =>
    cases rest with
    | nil => intro q h; cases h
    | cons b r =>
      intro q h
      rw [show pathPairs (a :: b :: r) = (a, b) :: pathPairs (b :: r) from rfl] at h
      rcases List.mem_cons.mp h with h | h
      · rw [h]
        exact ⟨List.mem_cons_self _ _, List.mem_cons_of_mem _ (List.mem_cons_self _ _)⟩
      · have hq := ih q h
        exact ⟨List.mem_cons_of_mem _ hq.1, List.mem_cons_of_mem _ hq.2⟩

/-- The collect phase raises exactly the broken-mapping `ValueError` of the
first unmapped pair, provided every earlier pair is mapped and has a string
source. -/
theorem collect_error_first (d : Decomp) :
    ∀ (pre : List (PyVal × PyVal)) (u v : PyVal) (post : List (PyVal × PyVal)),
      (∀ q ∈ pre, (alGet d.edge_mapping q).isSome ∧ q.1.isStr = true) →
      alGet d.edge_mapping (u, v) = none →
      collectEdges d (pre ++ (u, v) :: post) =
        .error (.valueError (brokenMsg u v)) := by
  intro pre
  induction pre with
  | nil =>
    intro u v post _ hnone
    rw [List.nil_append]
    simp only [collectEdges, hnone]
  | cons q pre ih =>
    intro u v post hpre hnone
    obtain ⟨a, b⟩ := q
    obtain ⟨hsome, hstr⟩ := hpre (a, b) (List.mem_cons_self _ _)
    obtain ⟨w, hw⟩ := Option.isSome_iff_exists.mp hsome
    cases a with
    | int m => cases hstr
    | str s =>
      rw [List.cons_append]
      simp only [collectEdges, hw]
      rw [show pyInSplit (PyVal.str s) = .ok (strContainsSplit s) from rfl,
          except_bind_ok,
          ih u v post (fun q hq => hpre q (List.mem_cons_of_mem _ hq)) hnone,
          except_bind_error]

/-- The merge pass succeeds (with some output) whenever every entry except
possibly the last has a string target: the only failure mode is the
substring test on an `int` target. -/
theorem simplify_total :
    ∀ (n : Nat) (l : List (PyVal × PyVal × PyVal)), l.length ≤ n →
      (∀ t ∈ l.dropLast, ∃ s, t.2.1 = PyVal.str s) →
      ∃ r, simplifyPath l = .ok r := by
  intro n
  induction n with
  | zero =>
    intro l hl _
    have hnil : l = [] := List.eq_nil_of_length_eq_zero (Nat.le_zero.mp hl)
    rw [hnil]
    exact ⟨[], rfl⟩
  | succ n ih =>
    intro l hl hgd
    match l with
    | [] => exact ⟨[], rfl⟩
    | [e] => exact ⟨[e], rfl⟩
    | (u1, v1, k1) :: (u2, v2, k2) :: rest =>
      obtain ⟨s, hs⟩ := hgd (u1, v1, k1) (by
        rw [show ((u1, v1, k1) :: (u2, v2, k2) :: rest).dropLast
            = (u1, v1, k1) :: ((u2, v2, k2) :: rest).dropLast from rfl]
        exact List.mem_cons_self _ _)
      have hlen1 : ((u2, v2, k2) :: rest).length ≤ n := by
        simp only [List.length_cons] at hl ⊢
        omega
      have hlen2 : rest.length ≤ n := by
        simp only [List.length_cons] at hl
        omega
      have hgd1 : ∀ t ∈ ((u2, v2, k2) :: rest).dropLast, ∃ s, t.2.1 = PyVal.str s := by
        intro t ht
        refine hgd t ?_
        rw [show ((u1, v1, k1) :: (u2, v2, k2) :: rest).dropLast
            = (u1, v1, k1) :: ((u2, v2, k2) :: rest).dropLast from rfl]
        exact List.mem_cons_of_mem _ ht
      have hgd2 : ∀ t ∈ rest.dropLast, ∃ s, t.2.1 = PyVal.str s := by
        intro t ht
        refine hgd1 t ?_
        cases rest with
        | nil => cases ht
        | cons e3 r3 =>
          rw [show ((u2, v2, k2) :: e3 :: r3).dropLast
              = (u2, v2, k2) :: (e3 :: r3).dropLast from rfl]
          exact List.mem_cons_of_mem _ ht
      simp only [simplifyPath]
      have hs' : v1 = PyVal.str s := hs
      by_cases hk : k1 = k2
      · rw [if_pos hk, hs']
        rw [show pyInSplit (PyVal.str s) = .ok (strContainsSplit s) from rfl,
            except_bind_ok]
        by_cases hc : strContainsSplit s = true ∧ u2 = PyVal.str s
        · rw [if_pos hc]
          obtain ⟨r, hr⟩ := ih rest hlen2 hgd2
          rw [hr, except_bind_ok]
          exact ⟨_, rfl⟩
        · rw [if_neg hc]
          obtain ⟨r, hr⟩ := ih ((u2, v2, k2) :: rest) hlen1 hgd1
          rw [hr, except_bind_ok]
          exact ⟨_, rfl⟩
      · rw [if_neg hk]
        obtain ⟨r, hr⟩ := ih ((u2, v2, k2) :: rest) hlen1 hgd1
        rw [hr, except_bind_ok]
        exact ⟨_, rfl⟩

/-- Over a well-formed build, a mapped pair `(u, v)` with a string `v`
resolves to an entry whose target is a string — unless the target is an
original `int` node reached through a synthetic hop, in which case no pair
`(v, v')` with a string `v'` is mapped at all (the walk cannot continue over
string nodes). -/
theorem entry_target {G : MultiDiGraph} (hWF : WF G) (u v : PyVal)
    (w : PyVal × PyVal × PyVal) (hv : v.isStr = true)
    (hw : alGet (createSplitGraph G).edge_mapping (u, v) = some w) :
    (∃ s, w.2.1 = PyVal.str s) ∨
    (∀ v', v'.isStr = true →
      alGet (createSplitGraph G).edge_mapping (v, v') = none) := by
  have hMI := MI_final hWF
  have hwit : ∀ (q : PyVal × PyVal) (i : Nat), i < (pairKeys G.edges q).length →
      (∃ x ∈ G.edges, (x.u, x.v) = q) ∧ markerFreeV q.1 ∧ markerFreeV q.2 := by
    intro q i hi
    have hq : pairEdges G.edges q ≠ [] :=
      pairEdges_ne_of_keys_pos (Nat.lt_of_le_of_lt (Nat.zero_le i) hi)
    obtain ⟨x, hx, hxq⟩ := pair_witness hq
    refine ⟨⟨x, hx, hxq⟩, ?_⟩
    have h := wf_marker_of_mem hWF hx
    rw [show x.u = q.1 from congrArg Prod.fst hxq,
        show x.v = q.2 from congrArg Prod.snd hxq] at h
    exact h
  have hdom := hMI.map_dom (u, v) (by rw [hw]; rfl)
  rcases hdom with hdir | ⟨p, i, h1, h2, hqe | hqe⟩
  · -- direct pair: the entry's target is the pair's target `v`, a string
    left
    have hk1 : 0 < (pairKeys G.edges (u, v)).length := by
      unfold pairKeys
      cases hc : pairEdges G.edges (u, v) with
      | nil => exact absurd hc hdir
      | cons x r => simp
    obtain ⟨k0, hk0⟩ : ∃ k0, (pairKeys G.edges (u, v))[0]? = some k0 :=
      ⟨_, List.getElem?_eq_getElem hk1⟩
    have hval := hMI.map_dir (u, v) k0 hk0
    rw [hw] at hval
    have hwv : w = (u, v, k0) := Option.some.inj hval
    cases hvs : v with
    | str s => exact ⟨s, by rw [hwv, hvs]⟩
    | int m => rw [hvs] at hv; cases hv
  · -- first half of a split pair: the target is the original target `p.2`
    have hvN : v = splitNode p.1 p.2 i := congrArg Prod.snd hqe
    obtain ⟨ki, hki⟩ : ∃ ki, (pairKeys G.edges p)[i]? = some ki :=
      ⟨_, List.getElem?_eq_getElem h2⟩
    have hval := hMI.map_s1 p i ki h1 hki
    rw [show (p.1, splitNode p.1 p.2 i) = (u, v) from hqe.symm, hw] at hval
    have hwv : w = (p.1, p.2, ki) := Option.some.inj hval
    cases hp2 : p.2 with
    | str s => exact Or.inl ⟨s, by rw [hwv]; exact hp2⟩
    | int m =>
      right
      intro v' hv'
      cases hvv' : alGet (createSplitGraph G).edge_mapping (v, v') with
      | none => rfl
      | some w2 =>
        exfalso
        have hdom2 := hMI.map_dom (v, v') (by rw [hvv']; rfl)
        rcases hdom2 with hdir2 | ⟨q, j, hj1, hj2, hqe2 | hqe2⟩
        · obtain ⟨x, hx, hxq⟩ := pair_witness hdir2
          have hxu : x.u = splitNode p.1 p.2 i := by
            rw [show x.u = v from congrArg Prod.fst hxq]
            exact hvN
          exact markerFreeV_ne_splitNode (wf_marker_of_mem hWF hx).1 p.1 p.2 i hxu
        · have hq1 : q.1 = splitNode p.1 p.2 i := by
            rw [show q.1 = v from (congrArg Prod.fst hqe2).symm]
            exact hvN
          exact markerFreeV_ne_splitNode (hwit q j hj2).2.1 p.1 p.2 i hq1
        · have hname : splitNode q.1 q.2 j = splitNode p.1 p.2 i := by
            rw [show splitNode q.1 q.2 j = v from (congrArg Prod.fst hqe2).symm]
            exact hvN
          obtain ⟨hqp, hji⟩ := splitNode_pair_inj hWF (hwit q j hj2).1
            (hwit p i h2).1 hname
          have hv'q : v' = q.2 := congrArg Prod.snd hqe2
          rw [hv'q, show q.2 = p.2 from congrArg Prod.snd hqp, hp2] at hv'
          cases hv'
  · -- second half of a split pair: the target is the pair's target `v`
    left
    have hvp2 : v = p.2 := congrArg Prod.snd hqe
    obtain ⟨ki, hki⟩ : ∃ ki, (pairKeys G.edges p)[i]? = some ki :=
      ⟨_, List.getElem?_eq_getElem h2⟩
    have hval := hMI.map_s2 p i ki h1 hki
    rw [show (splitNode p.1 p.2 i, p.2) = (u, v) from hqe.symm, hw] at hval
    have hwv : w = (p.1, p.2, ki) := Option.some.inj hval
    cases hvs : v with
    | str s =>
      refine ⟨s, ?_⟩
      rw [hwv, ← hvp2, hvs]
    | int m => rw [hvs] at hv; cases hv

/-- Over a well-formed build, the collect phase succeeds on any all-string
path whose consecutive pairs are all mapped, and every kept entry except
possibly the last has a string target. -/
theorem collect_good {G : MultiDiGraph} (hWF : WF G) :
    ∀ (path : List PyVal), (∀ n ∈ path, n.isStr = true) →
      (∀ q ∈ pathPairs path, (alGet (createSplitGraph G).edge_mapping q).isSome) →
      ∃ res, collectEdges (createSplitGraph G) (pathPairs path) = .ok res ∧
        ∀ t ∈ res.dropLast, ∃ s, t.2.1 = PyVal.str s := by
  intro path
  induction path with
  | nil =>
    intro _ _
    exact ⟨[], rfl, fun t ht => absurd ht (List.not_mem_nil t)⟩
  | cons x rest ih =>
    cases rest with
    | nil =>
      intro _ _
      exact ⟨[], rfl, fun t ht => absurd ht (List.not_mem_nil t)⟩
    | cons y r =>
      intro hstr hmap
      have hxs : x.isStr = true := hstr x (List.mem_cons_self _ _)
      have hys : y.isStr = true :=
        hstr y (List.mem_cons_of_mem _ (List.mem_cons_self _ _))
      have hpp : pathPairs (x :: y :: r) = (x, y) :: pathPairs (y :: r) := rfl
      have hxy : (alGet (createSplitGraph G).edge_mapping (x, y)).isSome := by
        refine hmap (x, y) ?_
        rw [hpp]
        exact List.mem_cons_self _ _
      obtain ⟨w, hw⟩ := Option.isSome_iff_exists.mp hxy
      obtain ⟨res0, hres0, hgd0⟩ := ih
        (fun n hn => hstr n (List.mem_cons_of_mem _ hn))
        (fun q hq => hmap q (by rw [hpp]; exact List.mem_cons_of_mem _ hq))
      cases x with
      | int m => cases hxs
      | str sx =>
        rw [hpp]
        simp only [collectEdges, hw]
        rw [show pyInSplit (PyVal.str sx) = .ok (strContainsSplit sx) from rfl,
            except_bind_ok, hres0, except_bind_ok]
        refine ⟨_, rfl, ?_⟩
        by_cases hb : strContainsSplit sx = true
        · rw [if_pos hb]
          exact hgd0
        · rw [if_neg hb]
          intro t ht
          cases hres0nil : res0 with
          | nil =>
            rw [hres0nil] at ht
            cases ht
          | cons t2 r2 =>
            rw [hres0nil] at ht
            rw [show (w :: t2 :: r2).dropLast = w :: (t2 :: r2).dropLast from rfl] at ht
            rcases List.mem_cons.mp ht with ht | ht
            · rw [ht]
              rcases entry_target hWF (PyVal.str sx) y w hys hw with hok | hnone
              · exact hok
              · exfalso
                cases r with
                | nil =>
                  rw [show pathPairs [y] = ([] : List (PyVal × PyVal)) from rfl] at hres0
                  have hres0e : ([] : List (PyVal × PyVal × PyVal)) = res0 :=
                    Except.ok.inj hres0
                  rw [← hres0e] at hres0nil
                  cases hres0nil
                | cons z rr =>
                  have hz : z.isStr = true := hstr z (List.mem_cons_of_mem _
                    (List.mem_cons_of_mem _ (List.mem_cons_self _ _)))
                  have hyz := hmap (y, z) (by
                    rw [hpp, show pathPairs (y :: z :: rr) = (y, z) :: pathPairs (z :: rr)
                      from rfl]
                    exact List.mem_cons_of_mem _ (List.mem_cons_self _ _))
                  rw [hnone z hz] at hyz
                  cases hyz
            · refine hgd0 t ?_
              rw [hres0nil]
              exact ht

/-- C6 (amended): over a well-formed build and an all-string path,
`pathToOriginal` succeeds whenever every consecutive pair is mapped, and
raises exactly the broken-mapping `ValueError` naming the first unmapped
pair whenever one exists. Without those hypotheses the equivalence fails:
the substring test can raise `TypeError` even with every pair mapped. -/
theorem C6_theorem {G : MultiDiGraph} (hWF : WF G) (path : List PyVal)
    (hstr : ∀ n ∈ path, n.isStr = true) :
    ((∀ q ∈ pathPairs path, (alGet (createSplitGraph G).edge_mapping q).isSome) →
      ∃ res, convert_path_to_original (createSplitGraph G) path = .ok res) ∧
    (∀ pre u v post, pathPairs path = pre ++ (u, v) :: post →
      (∀ q ∈ pre, (alGet (createSplitGraph G).edge_mapping q).isSome) →
      alGet (createSplitGraph G).edge_mapping (u, v) = none →
      convert_path_to_original (createSplitGraph G) path =
        .error (.valueError (brokenMsg u v))) := by
  constructor
  · intro hmap
    obtain ⟨res, hcol, hgd⟩ := collect_good hWF path hstr hmap
    obtain ⟨r, hr⟩ := simplify_total res.length res le_rfl hgd
    refine ⟨r, ?_⟩
    unfold convert_path_to_original
    rw [hcol, except_bind_ok, hr]
  · intro pre u v post hsplit hpre hnone
    have hprestr : ∀ q ∈ pre,
        (alGet (createSplitGraph G).edge_mapping q).isSome ∧ q.1.isStr = true := by
      intro q hq
      refine ⟨hpre q hq, ?_⟩
      have hqmem : q ∈ pathPairs path := by
        rw [hsplit]
        exact List.mem_append_left _ hq
      exact hstr q.1 (pathPairs_mem path q hqmem).1
    have hcol := collect_error_first (createSplitGraph G) pre u v post hprestr hnone
    unfold convert_path_to_original
    rw [hsplit, hcol, except_bind_error]

/-- C6 witness: on the scenario graph, the fully mapped path through the
synthetic node succeeds, and the path `[A, C]` with its unmapped pair raises
the broken-mapping `ValueError` naming `(A, C)`. -/
theorem C6_witness :
    (∃ res, convert_path_to_original dscn [vA, sAB1, vB, vC] = .ok res) ∧
    convert_path_to_original dscn [vA, vC] =
      .error (.valueError (brokenMsg vA vC)) := by
  constructor
  · exact (C6_theorem (G := Gscn)
      ⟨by decide, by decide, by decide, by decide, by decide⟩
      [vA, sAB1, vB, vC] (by decide)).1 (by decide)
  · exact (C6_theorem (G := Gscn)
      ⟨by decide, by decide, by decide, by decide, by decide⟩
      [vA, vC] (by decide)).2 [] vA vC []
      (by decide) (fun q hq => absurd hq (List.not_mem_nil q)) (by decide)

/-- C6 counterexample: the claimed equivalence fails as stated. On the
int-labelled graph the only pair of the path `[1, 2]` is mapped, yet the call
raises `TypeError`, not success; on the punning graph every pair of the
all-string path `[A, A_5_split_1, "5", B]` is mapped, yet the merge pass
raises `TypeError` because the resolved entry's target is the int node 5. -/
theorem C6_counterexample :
    ((∀ q ∈ pathPairs [PyVal.int 1, PyVal.int 2],
        (alGet dint.edge_mapping q).isSome) ∧
      convert_path_to_original dint [PyVal.int 1, PyVal.int 2] =
        .error (.typeError "argument of type int is not iterable")) ∧
    ((∀ n ∈ [vA, n5s1, v5s, vB], n.isStr = true) ∧
      (∀ q ∈ pathPairs [vA, n5s1, v5s, vB],
        (alGet dpun.edge_mapping q).isSome) ∧
      convert_path_to_original dpun [vA, n5s1, v5s, vB] =
        .error (.typeError "argument of type int is not iterable")) := by
  decide

/-- The split representation of one original edge over a well-formed build:
the direct edge `[(u,v)]` for the first parallel edge of its pair, the
two-edge chain through the synthetic node for later ones — with the
corresponding forward-mapping entries. -/
theorem seg_cases {G : MultiDiGraph} (hWF : WF G) {e : MEdge} (he : e ∈ G.edges) :
    ∃ i, (pairKeys G.edges (e.u, e.v))[i]? = some e.key ∧
      ((i = 0 ∧ segTargets (createSplitGraph G) e = [e.v] ∧
        alGet (createSplitGraph G).edge_mapping (e.u, e.v) = some (e.u, e.v, e.key)) ∨
       (1 ≤ i ∧
        segTargets (createSplitGraph G) e = [splitNode e.u e.v i, e.v] ∧
        alGet (createSplitGraph G).edge_mapping (e.u, splitNode e.u e.v i) =
          some (e.u, e.v, e.key) ∧
        alGet (createSplitGraph G).edge_mapping (splitNode e.u e.v i, e.v) =
          some (e.u, e.v, e.key))) := by
  have hMI := MI_final hWF
  have hkmem : e.key ∈ pairKeys G.edges (e.u, e.v) := by
    unfold pairKeys
    exact List.mem_map_of_mem _ (mem_pairEdges.mpr ⟨he, rfl⟩)
  obtain ⟨i, hi⟩ := List.getElem?_of_mem hkmem
  have hrem := hMI.rem_at (e.u, e.v) i e.key hi
  refine ⟨i, hi, ?_⟩
  by_cases h0 : i = 0
  · subst h0
    have hent : canonEntry (e.u, e.v) 0 = (e.u, e.v) := by
      unfold canonEntry
      rw [if_pos rfl]
    rw [hent] at hrem
    left
    refine ⟨rfl, ?_, hMI.map_dir (e.u, e.v) e.key hi⟩
    unfold segTargets
    rw [show triple e = (e.u, e.v, e.key) from rfl]
    have hmfv := (wf_marker_of_mem hWF he).2
    simp only [convert_original_to_split_eq, hrem]
    cases hvv : e.v with
    | str s =>
      have hms : strContainsSplit s = false := by
        rw [hvv] at hmfv
        exact hmfv
      simp only [hms, Bool.false_eq_true, if_false, List.map_cons, List.map_nil]
    | int m => rfl
  · have h1 : 1 ≤ i := Nat.one_le_iff_ne_zero.mpr h0
    have hent : canonEntry (e.u, e.v) i = (e.u, splitNode e.u e.v i) := by
      unfold canonEntry
      rw [if_neg h0]
    rw [hent] at hrem
    right
    refine ⟨h1, ?_, hMI.map_s1 (e.u, e.v) i e.key h1 hi,
      hMI.map_s2 (e.u, e.v) i e.key h1 hi⟩
    unfold segTargets
    rw [show triple e = (e.u, e.v, e.key) from rfl]
    simp only [convert_original_to_split_eq, hrem, splitNode,
      strContainsSplit_splitNodeName, if_true, List.map_cons, List.map_nil]

/-- The collect phase over the split-graph walk realizing a chain of original
edges with string sources resolves to exactly one entry per original edge,
in order. -/
theorem collect_chain {G : MultiDiGraph} (hWF : WF G) :
    ∀ (ts : List MEdge) (x : PyVal), (∀ t ∈ ts, t ∈ G.edges) → chainFrom x ts →
      (∀ t ∈ ts, t.u.isStr = true) →
      collectEdges (createSplitGraph G)
          (pathPairs (x :: expandTails (createSplitGraph G) ts)) =
        .ok (ts.map triple) := by
  intro ts
  induction ts with
  | nil => intro x _ _ _; rfl
  | cons e rest ih =>
    intro x hsub hch hstr
    have heG : e ∈ G.edges := hsub e (List.mem_cons_self _ _)
    have hue : e.u = x := hch.1
    subst hue
    have hmfu := (wf_marker_of_mem hWF heG).1
    have hus := hstr e (List.mem_cons_self _ _)
    obtain ⟨i, hi, hcase⟩ := seg_cases hWF heG
    have htail := ih e.v (fun t ht => hsub t (List.mem_cons_of_mem _ ht)) hch.2
      (fun t ht => hstr t (List.mem_cons_of_mem _ ht))
    rw [show expandTails (createSplitGraph G) (e :: rest)
        = segTargets (createSplitGraph G) e ++ expandTails (createSplitGraph G) rest
      from rfl]
    have hsu' : ∃ su, e.u = PyVal.str su := by
      cases hz : e.u with
      | int m => rw [hz] at hus; cases hus
      | str su => exact ⟨su, rfl⟩
    obtain ⟨su, hsu⟩ := hsu'
    have hms : strContainsSplit su = false := by
      rw [hsu] at hmfu
      exact hmfu
    rcases hcase with ⟨h0, hseg, hmapd⟩ | ⟨h1, hseg, hmap1, hmap2⟩
    · rw [hseg,
          show (([e.v] : List PyVal) ++ expandTails (createSplitGraph G) rest)
            = e.v :: expandTails (createSplitGraph G) rest from rfl,
          show pathPairs (e.u :: e.v :: expandTails (createSplitGraph G) rest)
            = (e.u, e.v) :: pathPairs (e.v :: expandTails (createSplitGraph G) rest)
          from rfl]
      simp only [collectEdges, hmapd]
      rw [htail, hsu,
          show pyInSplit (PyVal.str su) = .ok (strContainsSplit su) from rfl,
          except_bind_ok, except_bind_ok]
      simp only [hms, Bool.false_eq_true, if_false]
      rw [List.map_cons, show triple e = (e.u, e.v, e.key) from rfl, hsu]
    · rw [hseg,
          show (([splitNode e.u e.v i, e.v] : List PyVal)
              ++ expandTails (createSplitGraph G) rest)
            = splitNode e.u e.v i :: e.v :: expandTails (createSplitGraph G) rest
          from rfl,
          show pathPairs (e.u :: splitNode e.u e.v i :: e.v ::
              expandTails (createSplitGraph G) rest)
            = (e.u, splitNode e.u e.v i) :: (splitNode e.u e.v i, e.v) ::
              pathPairs (e.v :: expandTails (createSplitGraph G) rest) from rfl]
      simp only [collectEdges, hmap1, hmap2]
      rw [htail,
          show pyInSplit (splitNode e.u e.v i)
            = .ok (strContainsSplit (splitNodeName e.u e.v i)) from rfl,
          except_bind_ok, except_bind_ok,
          if_pos (strContainsSplit_splitNodeName e.u e.v i),
          hsu,
          show pyInSplit (PyVal.str su) = .ok (strContainsSplit su) from rfl,
          except_bind_ok]
      simp only [hms, Bool.false_eq_true, if_false]
      rw [except_bind_ok, List.map_cons, show triple e = (e.u, e.v, e.key) from rfl, hsu]

/-- Along a chain with string sources, every collected entry except the last
has a string target (the next edge departs from it). -/
theorem chain_dropLast_targets :
    ∀ (ts : List MEdge) (x : PyVal), chainFrom x ts →
      (∀ t ∈ ts, t.u.isStr = true) →
      ∀ q ∈ (ts.map triple).dropLast, ∃ s, q.2.1 = PyVal.str s := by
  intro ts
  induction ts with
  | nil => intro x _ _ q hq; cases hq
  | cons e rest ih =>
    intro x hch hstr q hq
    cases rest with
    | nil => cases hq
    | cons e2 r2 =>
      rw [show ((e :: e2 :: r2).map triple).dropLast
          = triple e :: ((e2 :: r2).map triple).dropLast from rfl] at hq
      rcases List.mem_cons.mp hq with hq | hq
      · have h2u : e2.u = e.v := hch.2.1
        have hs := hstr e2 (List.mem_cons_of_mem _ (List.mem_cons_self _ _))
        rw [h2u] at hs
        cases hsv : e.v with
        | int m => rw [hsv] at hs; cases hs
        | str s =>
          refine ⟨s, ?_⟩
          rw [hq, show (triple e).2.1 = e.v from rfl, hsv]
      · exact ih e.v hch.2 (fun t ht => hstr t (List.mem_cons_of_mem _ ht)) q hq

/-- C5 (amended): over a well-formed build, for every walk of original edges
with string sources, `pathToOriginal` applied to the realizing split-graph
path returns exactly one original edge id per traversed original edge, in
order — never inflated by synthetic-node hops. -/
theorem C5_theorem {G : MultiDiGraph} (hWF : WF G) (ts : List MEdge) (x : PyVal)
    (hsub : ∀ t ∈ ts, t ∈ G.edges) (hch : chainFrom x ts)
    (hstr : ∀ t ∈ ts, t.u.isStr = true) :
    convert_path_to_original (createSplitGraph G)
        (expandPath (createSplitGraph G) ts) = .ok (ts.map triple) ∧
    (ts.map triple).length = ts.length := by
  refine ⟨?_, List.length_map _ _⟩
  cases ts with
  | nil => rfl
  | cons e rest =>
    have hcol := collect_chain hWF (e :: rest) x hsub hch hstr
    have hx : expandPath (createSplitGraph G) (e :: rest)
        = x :: expandTails (createSplitGraph G) (e :: rest) := by
      rw [show expandPath (createSplitGraph G) (e :: rest)
          = e.u :: expandTails (createSplitGraph G) (e :: rest) from rfl, hch.1]
    rw [hx]
    unfold convert_path_to_original
    rw [hcol, except_bind_ok]
    have hok : ∀ t ∈ (e :: rest).map triple, okSource t := by
      intro t ht
      obtain ⟨x', hx', hxt⟩ := List.mem_map.mp ht
      have hs := hstr x' hx'
      have hmf := (wf_marker_of_mem hWF (hsub x' hx')).1
      cases hsu : x'.u with
      | int m => rw [hsu] at hs; cases hs
      | str s =>
        refine ⟨s, ?_, ?_⟩
        · rw [← hxt, show (triple x').1 = x'.u from rfl, hsu]
        · rw [hsu] at hmf
          exact hmf
    have hgd := chain_dropLast_targets (e :: rest) x hch hstr
    obtain ⟨r, hr⟩ := simplify_total ((e :: rest).map triple).length _ le_rfl hgd
    have hre := simplify_ok_eq ((e :: rest).map triple).length _ le_rfl hok r hr
    rw [hr, hre]

/-- C5 witness: the scenario walk `(A,B,k1)` then `(B,C,k0)` realizes the
split path `[A, A_B_split_1, B, C]`, and `pathToOriginal` returns exactly the
two original ids. -/
theorem C5_witness :
    convert_path_to_original dscn
        (expandPath dscn [{ u := vA, v := vB, key := k1, data := dat3 },
                          { u := vB, v := vC, key := k0, data := dat5 }]) =
      .ok [(vA, vB, k1), (vB, vC, k0)] ∧
    expandPath dscn [{ u := vA, v := vB, key := k1, data := dat3 },
                     { u := vB, v := vC, key := k0, data := dat5 }] =
      [vA, sAB1, vB, vC] := by
  refine ⟨?_, by decide⟩
  exact (C5_theorem (G := Gscn)
    ⟨by decide, by decide, by decide, by decide, by decide⟩
    [{ u := vA, v := vB, key := k1, data := dat3 },
     { u := vB, v := vC, key := k0, data := dat5 }] vA
    (by decide) ⟨rfl, rfl, trivial⟩ (by decide)).1

/-- C5 counterexample: on the graph with the legitimate marker-named node
`B_split_0`, the path `[A, B_split_0, C]` traverses two original direct
edges, yet `pathToOriginal` returns only one id: the source filter drops the
entry whose source is the marker-named original node. -/
theorem C5_counterexample :
    pathPairs [vA, Bs0, vC] = [(vA, Bs0), (Bs0, vC)] ∧
    ({ u := vA, v := Bs0, key := k0, data := dat5 } : MEdge) ∈ Gmark2.edges ∧
    ({ u := Bs0, v := vC, key := k0, data := dat5 } : MEdge) ∈ Gmark2.edges ∧
    convert_path_to_original dmark2 [vA, Bs0, vC] = .ok [(vA, Bs0, k0)] := by
  decide
